import Mathlib

/-!
Shallow embedding of the `multi_agent_schedule_task` scheduler core
(`scheduler.py`, `config.py`, `context.py`, `registry.py`) and proofs of
the specification claims about it.

Python dictionaries are modelled as association lists with
insert-or-update semantics; Python `None` is `Option.none`; exceptions
raised by tools are modelled as `RunResult.err` values carrying the
exception message; wall-clock time is an abstract `Nat` tick passed
explicitly where `time.time()` is read.
-/

set_option autoImplicit false

namespace MAST

/-- JSON-like values flowing through the scheduler (tool outputs,
parameters, context entries).  Tool outputs are opaque to the scheduler,
so any inhabited type with decidable equality would do. -/
inductive Value where
  | vnone
  | vbool (b : Bool)
  | vnat (n : Nat)
  | vstr (s : String)
deriving DecidableEq

/-- Result of one invocation of a tool's `run`: a returned value or a
raised exception's message. -/
inductive RunResult where
  | ok (v : Value)
  | err (msg : String)
deriving DecidableEq

/-- Lookup in an association list modelling a Python dict (first match;
keys are unique by construction via `insertA`). -/
def lookupA {β : Type} (key : String) : List (String × β) → Option β
  | [] => none
  | (k, v) :: rest => if k = key then some v else lookupA key rest

/-- Insert-or-update on an association list, preserving insertion order,
mirroring `d[key] = value` on a Python dict. -/
def insertA {β : Type} (key : String) (val : β) : List (String × β) → List (String × β)
  | [] => [(key, val)]
  | (k, v) :: rest => if k = key then (k, val) :: rest else (k, v) :: insertA key val rest

/-- Remove a key from an association list, mirroring `del d[key]`. -/
def removeA {β : Type} (key : String) : List (String × β) → List (String × β)
  | [] => []
  | (k, v) :: rest => if k = key then rest else (k, v) :: removeA key rest

/-! ## Context store (`context.py`) -/

/-- Entry stored by `ContextManager.set`: the Python dict
`{"value": value, "timestamp": time.time(), "step_id": step_id}`. -/
structure ContextEntry where
  value : Value
  timestamp : Nat
  step_id : Option String
deriving DecidableEq

/-- `ContextManager.__init__`: two-level mapping plus TTL.  The mutex is
irrelevant in the sequential embedding. -/
structure ContextManager where
  _context : List (String × List (String × ContextEntry))
  _expiration_time : Nat
deriving DecidableEq

/-- The Python expression `step_id or "global"`: `None` and the empty
string are falsy. -/
def orGlobal : Option String → String
  | none => "global"
  | some s => if s = "" then "global" else s

/-- The Python membership test `step_id not in self._context` (negated):
the raw `step_id` value is compared against the string keys, so `None`
never matches any key. -/
def rawKeyMem (step_id : Option String) (ctx : List (String × List (String × ContextEntry))) :
    Bool :=
  match step_id with
  | none => false
  | some s => (lookupA s ctx).isSome

/-- `ContextManager.set`, translated line by line: the guard checks the
raw `step_id`, while the scope that is created and written is keyed by
`step_id or "global"`. -/
def ContextManager.set (cm : ContextManager) (key : String) (value : Value)
    (step_id : Option String) (now : Nat) : ContextManager :=
  let ctx1 :=
    if rawKeyMem step_id cm._context then cm._context
    else insertA (orGlobal step_id) [] cm._context
  let scope := (lookupA (orGlobal step_id) ctx1).getD []
  let scope' := insertA key ⟨value, now, step_id⟩ scope
  { cm with _context := insertA (orGlobal step_id) scope' ctx1 }

/-- `ContextManager.get`: returns the value (or the default) together
with the possibly-updated store (an expired entry is deleted in place). -/
def ContextManager.get (cm : ContextManager) (key : String) (step_id : Option String)
    (default : Value) (now : Nat) : Value × ContextManager :=
  let scope := (lookupA (orGlobal step_id) cm._context).getD []
  match lookupA key scope with
  | none => (default, cm)
  | some entry =>
      if cm._expiration_time < now - entry.timestamp then
        (default,
          { cm with _context := insertA (orGlobal step_id) (removeA key scope) cm._context })
      else (entry.value, cm)

/-- `ContextManager.get_all`: flat snapshot of the non-expired entries of
one scope (the copy means the store itself is not mutated). -/
def ContextManager.get_all (cm : ContextManager) (step_id : Option String) (now : Nat) :
    List (String × Value) :=
  let scope := (lookupA (orGlobal step_id) cm._context).getD []
  (scope.filter (fun p => !(cm._expiration_time < now - p.2.timestamp))).map
    (fun p => (p.1, p.2.value))

/-! ## Configuration model (`config.py`) -/

/-- `StepConfig` dataclass.  `retry_delay` is carried abstractly (it is
only slept on, never computed with). -/
structure StepConfig where
  id : String
  name : String
  tool : String
  parameters : List (String × Value)
  dependencies : List String
  retry_count : Nat := 3
  retry_delay : Rat := 1
  fallback_tools : Option (List String) := none
  condition : Option String := none
deriving DecidableEq

/-- `TaskFlowConfig` dataclass. -/
structure TaskFlowConfig where
  name : String
  description : String
  steps : List StepConfig
  parallel_groups : Option (List (List String)) := none
deriving DecidableEq

/-! ## Tools and registry (`registry.py`) -/

/-- Input mapping passed to a tool's `run`. -/
abbrev Input := List (String × Value)

/-- Context snapshot passed to a tool's `run`. -/
abbrev Ctx := List (String × Value)

/-- A registered tool instance.  Python tools are stateful objects whose
`run` may behave differently on successive invocations; the embedding
makes that explicit: `run` receives the number of times this instance has
already been invoked, the input mapping, and the context snapshot, and
returns a value or raises (an error message). -/
structure Tool where
  run : Nat → Input → Ctx → RunResult

/-- `ToolRegistry._tools`: mapping from registry key to tool instance;
`get_tool` is `lookupA`. -/
abbrev Registry := List (String × Tool)

/-- Per-registry-key invocation counters (instrumentation standing in for
the hidden state of Python tool instances). -/
abbrev Counts := List (String × Nat)

/-! ## Execution statuses and results (`scheduler.py`) -/

/-- `StepStatus` enum. -/
inductive StepStatus where
  | pending
  | running
  | completed
  | failed
  | skipped
deriving DecidableEq

/-- `StepResult` dataclass (wall-clock `execution_time` is not modelled). -/
structure StepResult where
  step_id : String
  status : StepStatus
  output : Option Value := none
  error : Option String := none
  retry_count : Nat := 0
  tool_used : Option String := none
deriving DecidableEq

/-- `TaskExecutionResult` dataclass (wall-clock total time not
modelled). -/
structure TaskExecutionResult where
  task_name : String
  success : Bool
  step_results : List (String × StepResult) := []
  error_summary : List String := []
deriving DecidableEq

/-- Observable events of one step execution, recorded in order: a primary
attempt with its outcome, an `asyncio.sleep(retry_delay)` between primary
attempts, a fallback name that was absent from the registry, or a
fallback attempt with its outcome. -/
inductive Event where
  | primary (key : String) (r : RunResult)
  | sleep (d : Rat)
  | fallbackMissing (key : String)
  | fallback (key : String) (r : RunResult)
deriving DecidableEq

/-- Fetch-and-bump the invocation counter of one tool key. -/
def bumpCount (key : String) (counts : Counts) : Nat × Counts :=
  let c := (lookupA key counts).getD 0
  (c, insertA key (c + 1) counts)

/-- The primary-attempt loop of `_execute_with_retry`
(`for attempt in range(step.retry_count + 1)`), called with
`remaining = retry_count + 1`.  Returns the successful output (if any),
the captured `last_error`, the updated counters and the event trace.
On a failed attempt that is not the last, the scheduler sleeps
`retry_delay` before retrying. -/
def primaryLoop (tool : Tool) (key : String) (input : Input) (ctxSnap : Ctx) (delay : Rat) :
    Nat → Counts → Option String → Option Value × Option String × Counts × List Event
  | 0, counts, lastErr => (none, lastErr, counts, [])
  | n + 1, counts, lastErr =>
      let (c, counts1) := bumpCount key counts
      match tool.run c input ctxSnap with
      | RunResult.ok v => (some v, lastErr, counts1, [Event.primary key (RunResult.ok v)])
      | RunResult.err e =>
          match primaryLoop tool key input ctxSnap delay n counts1 (some e) with
          | (res, le, cts, tr) =>
              (res, le, cts,
                Event.primary key (RunResult.err e) ::
                  (if n = 0 then [] else [Event.sleep delay]) ++ tr)

/-- The fallback loop of `_execute_with_retry`: each name is looked up;
an absent name is skipped silently; a present one gets a single attempt;
the first success is returned; a failure moves on (and is *not* captured
into `last_error`). -/
def fallbackLoop (reg : Registry) (input : Input) (ctxSnap : Ctx) :
    List String → Counts → Option Value × Counts × List Event
  | [], counts => (none, counts, [])
  | name :: rest, counts =>
      match lookupA name reg with
      | none =>
          let (res, cts, tr) := fallbackLoop reg input ctxSnap rest counts
          (res, cts, Event.fallbackMissing name :: tr)
      | some t =>
          let (c, counts1) := bumpCount name counts
          match t.run c input ctxSnap with
          | RunResult.ok v => (some v, counts1, [Event.fallback name (RunResult.ok v)])
          | RunResult.err e =>
              let (res, cts, tr) := fallbackLoop reg input ctxSnap rest counts1
              (res, cts, Event.fallback name (RunResult.err e) :: tr)

/-- `_execute_with_retry(tool, input_data, step)`.  `toolKey` is the
registry key the tool was fetched under (`step.tool`); the context
snapshot passed to every attempt is `get_all()` of the global scope.
`if step.fallback_tools:` treats both `None` and `[]` as falsy.  When
everything fails the scheduler raises
`last_error or Exception("All execution attempts failed")`. -/
def execute_with_retry (reg : Registry) (cm : ContextManager) (tool : Tool) (toolKey : String)
    (input : Input) (step : StepConfig) (counts : Counts) : RunResult × Counts × List Event :=
  let ctxSnap := cm.get_all none 0
  let (pres, lastErr, counts1, tr1) :=
    primaryLoop tool toolKey input ctxSnap step.retry_delay (step.retry_count + 1) counts none
  match pres with
  | some v => (RunResult.ok v, counts1, tr1)
  | none =>
      match step.fallback_tools with
      | none => (RunResult.err (lastErr.getD "All execution attempts failed"), counts1, tr1)
      | some [] => (RunResult.err (lastErr.getD "All execution attempts failed"), counts1, tr1)
      | some (f :: fs) =>
          let (fres, counts2, tr2) := fallbackLoop reg input ctxSnap (f :: fs) counts1
          match fres with
          | some v => (RunResult.ok v, counts2, tr1 ++ tr2)
          | none =>
              (RunResult.err (lastErr.getD "All execution attempts failed"), counts2, tr1 ++ tr2)

/-! ## Per-step execution and the wave loop (`scheduler.py`) -/

/-- The `step_results` dict. -/
abbrev Results := List (String × StepResult)

/-- Mutable scheduler state threaded through the (sequentialised)
embedding.  `log` and `trace` are observer instrumentation: `log`
records the ids of steps whose execution began (`_execute_step`
entered), `trace` records the attempt events. -/
structure SchedState where
  results : Results
  ctx : ContextManager
  counts : Counts
  log : List String
  trace : List Event

/-- `_prepare_step_input`: shallow copy of the parameters, plus
`dep_<dep>_output` for every dependency present in `step_results` with a
non-`None` output. -/
def prepare_step_input (step : StepConfig) (results : Results) : Input :=
  step.dependencies.foldl
    (fun acc dep =>
      match lookupA dep results with
      | some r =>
          match r.output with
          | some v => insertA ("dep_" ++ dep ++ "_output") v acc
          | none => acc
      | none => acc)
    step.parameters

/-- `_check_condition`: `None` and `""` are truthy skips of the check; a
string starting with `"dep_"` requires the named step to be COMPLETED
(a missing id behaves like the dummy `StepResult("", PENDING)`); any
other string yields `True`. -/
def check_condition (step : StepConfig) (results : Results) : Bool :=
  match step.condition with
  | none => true
  | some c =>
      if c = "" then true
      else if "dep_".data.isPrefixOf c.data then
        match lookupA (String.mk (c.data.drop 4)) results with
        | some r => r.status == StepStatus.completed
        | none => false
      else true

/-- `step_results[id].status = s` (no-op on a missing key, which cannot
occur for validated flows). -/
def setStatus (results : Results) (id : String) (s : StepStatus) : Results :=
  match lookupA id results with
  | some r => insertA id { r with status := s } results
  | none => results

/-- Whether `step_results[id].status == StepStatus.PENDING`. -/
def isPending (results : Results) (id : String) : Bool :=
  match lookupA id results with
  | some r => r.status == StepStatus.pending
  | none => false

/-- `deps_completed`: every dependency has status COMPLETED. -/
def depsCompleted (results : Results) (step : StepConfig) : Bool :=
  step.dependencies.all (fun d =>
    match lookupA d results with
    | some r => r.status == StepStatus.completed
    | none => false)

/-- The ready-step scan at the top of the wave loop in `_execute_steps`:
walks `config.steps` in order, collects the ready steps, and marks a
ready step whose condition is false as SKIPPED immediately (the mutation
is visible to the remainder of the same scan). -/
def scanReady : List StepConfig → Results → List StepConfig × Results
  | [], results => ([], results)
  | step :: rest, results =>
      if isPending results step.id then
        if depsCompleted results step then
          if check_condition step results then
            let (rdy, results') := scanReady rest results
            (step :: rdy, results')
          else scanReady rest (setStatus results step.id StepStatus.skipped)
        else scanReady rest results
      else scanReady rest results

/-- The accumulation over declared parallel groups in
`_group_parallel_steps`: for each declared group, the ready steps named
in it and not yet consumed form one execution group (dropped if empty). -/
def groupBy : List (List String) → List StepConfig → List String →
    List (List StepConfig) × List String
  | [], _, used => ([], used)
  | gids :: rest, ready, used =>
      let g := ready.filter (fun s => gids.contains s.id && !(used.contains s.id))
      if g.isEmpty then groupBy rest ready used
      else
        let (gs, used') := groupBy rest ready (used ++ g.map (fun s => s.id))
        (g :: gs, used')

/-- `_group_parallel_steps` (`if not parallel_groups:` treats `None` and
`[]` alike): declared groups first, then the remaining ready steps as
singleton groups. -/
def group_parallel_steps (ready : List StepConfig) :
    Option (List (List String)) → List (List StepConfig)
  | none => ready.map (fun s => [s])
  | some [] => ready.map (fun s => [s])
  | some (g0 :: gs) =>
      let (groups, used) := groupBy (g0 :: gs) ready []
      groups ++ (ready.filter (fun s => !(used.contains s.id))).map (fun s => [s])

/-- The `_execute_with_retry` call made by `_execute_step` for one step,
with the input assembled from the current results (after the step was
marked RUNNING). -/
def stepRetryOutcome (reg : Registry) (step : StepConfig) (st : SchedState) (tool : Tool) :
    RunResult × Counts × List Event :=
  let r0 := (lookupA step.id st.results).getD ⟨step.id, StepStatus.pending, none, none, 0, none⟩
  let results1 := insertA step.id { r0 with status := StepStatus.running } st.results
  execute_with_retry reg st.ctx tool step.tool (prepare_step_input step results1) step st.counts

/-- `_execute_step`: mark RUNNING, look up the primary tool (a missing
tool fails the step immediately), run the retry/fallback machinery, then
freeze the StepResult.  On success the recorded `tool_used` is
`step.tool` and the output is written to the step-scoped context; on
failure only the error message is recorded. -/
def execute_step (reg : Registry) (step : StepConfig) (st : SchedState) : SchedState :=
  let r0 := (lookupA step.id st.results).getD ⟨step.id, StepStatus.pending, none, none, 0, none⟩
  let results1 := insertA step.id { r0 with status := StepStatus.running } st.results
  let log1 := st.log ++ [step.id]
  match lookupA step.tool reg with
  | none =>
      { st with
          results := insertA step.id
            ⟨step.id, StepStatus.failed, none,
              some ("Tool '" ++ step.tool ++ "' not found"), 0, none⟩ results1,
          log := log1 }
  | some tool =>
      match stepRetryOutcome reg step st tool with
      | (RunResult.ok v, counts2, tr) =>
          { results := insertA step.id
              ⟨step.id, StepStatus.completed, some v, none, 0, some step.tool⟩ results1,
            ctx := st.ctx.set ("step_" ++ step.id ++ "_output") v (some step.id) 0,
            counts := counts2,
            log := log1,
            trace := st.trace ++ tr }
      | (RunResult.err e, counts2, tr) =>
          { st with
              results := insertA step.id
                ⟨step.id, StepStatus.failed, none, some e, 0, none⟩ results1,
              counts := counts2,
              log := log1,
              trace := st.trace ++ tr }

/-- Sequentialisation of one execution group (`_execute_parallel_group` /
a single-step task). -/
def runSeq (reg : Registry) : List StepConfig → SchedState → SchedState
  | [], st => st
  | step :: rest, st => runSeq reg rest (execute_step reg step st)

/-- Sequentialisation of `asyncio.gather` over the wave's groups. -/
def runGroups (reg : Registry) : List (List StepConfig) → SchedState → SchedState
  | [], st => st
  | g :: rest, st => runGroups reg rest (runSeq reg g st)

/-- The wave loop of `_execute_steps` (`while True`), with explicit fuel;
`executeSteps` supplies enough fuel for any flow.  A wave with no ready
steps terminates the loop. -/
def waveLoop (reg : Registry) (cfg : TaskFlowConfig) : Nat → SchedState → SchedState
  | 0, st => st
  | fuel + 1, st =>
      match scanReady cfg.steps st.results with
      | (ready, results1) =>
          if ready.isEmpty then { st with results := results1 }
          else
            waveLoop reg cfg fuel
              (runGroups reg (group_parallel_steps ready cfg.parallel_groups)
                { st with results := results1 })

/-- `_execute_steps`: each wave with ready steps moves at least one step
out of PENDING, so `steps.length + 1` waves always suffice. -/
def executeSteps (reg : Registry) (cfg : TaskFlowConfig) (st : SchedState) : SchedState :=
  waveLoop reg cfg (cfg.steps.length + 1) st

/-- The scheduler's own `_validate_config`: it checks *only* that every
dependency names an existing step id. -/
def scheduler_validate (cfg : TaskFlowConfig) : List String :=
  let ids := cfg.steps.map (fun s => s.id)
  (cfg.steps.map (fun step =>
    (step.dependencies.filter (fun d => !(ids.contains d))).map
      (fun d => "Step '" ++ step.id ++ "' depends on unknown step '" ++ d ++ "'"))).flatten

/-- `execute_task`: validate, initialise every step's result to PENDING,
drain the waves, then compute overall success
(`all(status == COMPLETED for r in results if status != SKIPPED)`). -/
def execute_task (reg : Registry) (cm : ContextManager) (cfg : TaskFlowConfig) :
    TaskExecutionResult :=
  if scheduler_validate cfg = [] then
    let results0 := cfg.steps.foldl
      (fun acc s => insertA s.id ⟨s.id, StepStatus.pending, none, none, 0, none⟩ acc) []
    let stF := executeSteps reg cfg ⟨results0, cm, [], [], []⟩
    let success := stF.results.all (fun p =>
      if p.2.status == StepStatus.skipped then true else p.2.status == StepStatus.completed)
    ⟨cfg.name, success, stF.results, []⟩
  else ⟨cfg.name, false, [], scheduler_validate cfg⟩

/-! ## Environment-variable substitution (`config.py`,
`_substitute_env_var_in_string`, pattern
`\$\{([^:}]+)(?::([^}]*))?\}` under `re.sub`) -/

/-- Character class `[^:}]` of the variable-name group. -/
def nameChar (c : Char) : Bool := c != ':' && c != '}'

/-- Try to match the pattern at the head of the character list.  Returns
the name group, the optional default group, and the characters after the
match.  The greedy `[^:}]+` run is the maximal `takeWhile`; after it the
next character must be `}` (no default) or `:` followed by a maximal
`[^}]*` run and `}`. -/
def matchEnvRef : List Char → Option (String × Option String × List Char)
  | c1 :: c2 :: rest =>
      if c1 = '$' ∧ c2 = '{' then
        let nm := rest.takeWhile nameChar
        let rest' := rest.dropWhile nameChar
        if nm.isEmpty then none
        else
          match rest' with
          | [] => none
          | c3 :: rest2 =>
              if c3 = '}' then some (String.mk nm, none, rest2)
              else if c3 = ':' then
                let dflt := rest2.takeWhile (fun c => c != '}')
                match rest2.dropWhile (fun c => c != '}') with
                | [] => none
                | c4 :: rest3 =>
                    if c4 = '}' then some (String.mk nm, some (String.mk dflt), rest3)
                    else none
              else none
      else none
  | _ => none

/-- The text `match.group(0)` of a successful match, reconstructed from
its groups. -/
def wholeMatch (nm : String) (dflt : Option String) : List Char :=
  match dflt with
  | none => '$' :: '{' :: nm.data ++ ['}']
  | some d => '$' :: '{' :: nm.data ++ ':' :: d.data ++ ['}']

/-- The `replace_var` callback: the environment value if the variable is
set, else the default if it is *non-empty* (`elif default_value:` — an
empty default is falsy), else the original matched text. -/
def replaceVar (env : String → Option String) (nm : String) (dflt : Option String) :
    List Char :=
  match env nm with
  | some v => v.data
  | none =>
      match dflt with
      | some d => if d = "" then wholeMatch nm dflt else d.data
      | none => wholeMatch nm dflt

/-- The left-to-right non-overlapping scan of `re.sub`: at each position
either the pattern matches (emit the replacement, continue after the
match) or the head character is emitted verbatim.  `fuel ≥ length`
suffices because a match consumes at least four characters. -/
def substGo (env : String → Option String) : Nat → List Char → List Char
  | _, [] => []
  | 0, cs => cs
  | fuel + 1, c :: rest =>
      match matchEnvRef (c :: rest) with
      | some (nm, dflt, tail) => replaceVar env nm dflt ++ substGo env fuel tail
      | none => c :: substGo env fuel rest

/-- `_substitute_env_var_in_string(text)` with the process environment
abstracted as `env` (`os.getenv`). -/
def substitute_env_var_in_string (env : String → Option String) (text : String) : String :=
  String.mk (substGo env text.data.length text.data)

/-! ## Trace-shape vocabulary used to state the retry/fallback policy -/

/-- Shape of the primary phase of a step's trace: one `primary` event
per attempt with exactly one `sleep d` between consecutive attempts and
none after the last. -/
def primaryShape (key : String) (d : Rat) : List RunResult → List Event
  | [] => []
  | [r] => [Event.primary key r]
  | r :: r' :: rs => Event.primary key r :: Event.sleep d :: primaryShape key d (r' :: rs)

/-- What the fallback phase records for one declared fallback name: a
silent skip when the name is absent from the registry, or exactly one
attempt when it is present. -/
def fbMatches (reg : Registry) (name : String) (e : Event) : Prop :=
  (lookupA name reg = none ∧ e = Event.fallbackMissing name) ∨
  (∃ t r, lookupA name reg = some t ∧ e = Event.fallback name r)

/-! ## Concrete fixtures used by counterexamples and witnesses -/

/-- A fresh context store with the default 1-hour TTL. -/
def emptyCtx : ContextManager := ⟨[], 3600⟩

/-- A tool whose `run` always raises `msg`. -/
def toolFail (msg : String) : Tool := ⟨fun _ _ _ => RunResult.err msg⟩

/-- A tool whose `run` always returns `v`. -/
def toolConst (v : Value) : Tool := ⟨fun _ _ _ => RunResult.ok v⟩

/-- A stateful tool that raises `msg` on its first `k` invocations and
returns `v` afterwards. -/
def toolFailsUntil (k : Nat) (v : Value) (msg : String) : Tool :=
  ⟨fun c _ _ => if c < k then RunResult.err msg else RunResult.ok v⟩

/-- Registry for the fallback-chain scenario (spec §8 scenario 4):
primary `p` always fails, `f1` fails, `f2` succeeds with `"ok"`. -/
def regFb : Registry :=
  [("p", toolFail "boom"), ("f1", toolFail "f1err"), ("f2", toolConst (Value.vstr "ok"))]

/-- Step for the fallback-chain scenario: `retry_count=1`,
`fallback_tools=["f1","f2"]`. -/
def stepFb : StepConfig := ⟨"s", "s", "p", [], [], 1, 0, some ["f1", "f2"], none⟩

/-- Scheduler state holding a single PENDING result for step `s`. -/
def stS : SchedState :=
  ⟨[("s", ⟨"s", StepStatus.pending, none, none, 0, none⟩)], emptyCtx, [], [], []⟩

/-- Registry for the retry-success scenario (spec §8 scenario 3): the
tool fails its first two invocations and then succeeds. -/
def regRetry : Registry := [("t", toolFailsUntil 2 (Value.vstr "done") "e")]

/-- Step for the retry-success scenario: `retry_count=2`. -/
def stepRetry : StepConfig := ⟨"s", "s", "t", [], [], 2, 0, none, none⟩

/-- Registry for the fallback-exhaustion scenario: primary raises
`"perr"`, the single fallback raises `"ferr"`. -/
def regExh : Registry := [("p", toolFail "perr"), ("f", toolFail "ferr")]

/-- Step for the fallback-exhaustion scenario: `retry_count=0`,
`fallback_tools=["f"]`. -/
def stepExh : StepConfig := ⟨"s", "s", "p", [], [], 0, 0, some ["f"], none⟩

/-- A flow violating structural invariant (4): its one step has an empty
tool name. -/
def cfgEmptyTool : TaskFlowConfig := ⟨"t", "", [⟨"s", "s", "", [], [], 0, 0, none, none⟩], none⟩

/-- A flow violating the dependency invariant: step `a` depends on the
non-existent id `zz`. -/
def cfgBadDep : TaskFlowConfig := ⟨"w", "", [⟨"a", "a", "t", [], ["zz"], 0, 0, none, none⟩], none⟩

/-- Flow used as a witness for C8: step `c` is immediately ready but its
condition `"dep_x"` names a non-existent step. -/
def cfgSkip : TaskFlowConfig :=
  ⟨"t", "", [⟨"a", "a", "t", [], [], 0, 0, none, none⟩,
    ⟨"c", "c", "t", [], [], 0, 0, none, some "dep_x"⟩], none⟩

/-- Registry for the C8 witness flow. -/
def regSkip : Registry := [("t", toolConst (Value.vstr "v"))]

/-- Initial PENDING results of the C8 witness flow. -/
def resSkip : Results :=
  [("a", ⟨"a", StepStatus.pending, none, none, 0, none⟩),
    ("c", ⟨"c", StepStatus.pending, none, none, 0, none⟩)]

/-- Initial scheduler state of the C8 witness flow. -/
def stSkip : SchedState := ⟨resSkip, emptyCtx, [], [], []⟩

/-- Single-step flow used as a witness for C7. -/
def cfgOk : TaskFlowConfig := ⟨"v", "", [⟨"a", "a", "t", [], [], 0, 0, none, none⟩], none⟩

/-- Registry for the C7 witness flow. -/
def regOk : Registry := [("t", toolConst (Value.vstr "x"))]

/-- A wellformed variable name for the pattern: non-empty and free of
`:` and `}` (so the greedy `[^:}]+` run matches it exactly). -/
def goodName (nm : String) : Prop := nm.data ≠ [] ∧ ∀ c ∈ nm.data, nameChar c = true

/-- A wellformed default for the pattern: free of `}`. -/
def goodDflt : Option String → Prop
  | none => True
  | some d => ∀ c ∈ d.data, (c != '}') = true

instance (nm : String) : Decidable (goodName nm) := by
  unfold goodName
  infer_instance

instance (d : Option String) : Decidable (goodDflt d) := by
  cases d with
  | none => exact isTrue trivial
  | some dd =>
      unfold goodDflt
      infer_instance

/-- Environment with only `X` set, for the C9 witness. -/
def envX : String → Option String := fun n => if n = "X" then some "val" else none

/-! ## Association-list lemmas -/

theorem lookupA_insertA_self {β : Type} (key : String) (val : β) (l : List (String × β)) :
    lookupA key (insertA key val l) = some val := by
  induction l with
  | nil => simp [insertA, lookupA]
  | cons p rest ih =>
      obtain ⟨k, v⟩ := p
      by_cases h : k = key <;> simp [insertA, lookupA, h, ih]

theorem lookupA_insertA_ne {β : Type} {key key' : String} (val : β) (l : List (String × β))
    (h : key ≠ key') : lookupA key (insertA key' val l) = lookupA key l := by
  induction l with
  | nil => simp [insertA, lookupA, Ne.symm h]
  | cons p rest ih =>
      obtain ⟨k, v⟩ := p
      by_cases hk : k = key'
      · subst hk
        simp [insertA, lookupA, Ne.symm h]
      · simp [insertA, lookupA, hk, ih]

theorem isSome_lookupA_insertA {β : Type} {key id : String} (val : β) (l : List (String × β))
    (h : (lookupA id l).isSome) : (lookupA id (insertA key val l)).isSome := by
  by_cases hk : id = key
  · subst hk; simp [lookupA_insertA_self]
  · rwa [lookupA_insertA_ne _ _ hk]

/-! ## Structural lemmas about `execute_step` -/

/-- `_execute_step` records, under the step's own id, one of exactly
three terminal results: tool-not-found failure, completion with
`tool_used = step.tool` and `retry_count = 0`, or failure with the
raised message and `retry_count = 0`. -/
theorem execute_step_lookup_self (reg : Registry) (step : StepConfig) (st : SchedState) :
    lookupA step.id (execute_step reg step st).results =
      some ⟨step.id, StepStatus.failed, none,
        some ("Tool '" ++ step.tool ++ "' not found"), 0, none⟩ ∧
      lookupA step.tool reg = none ∨
    (∃ tool v counts2 tr,
      lookupA step.tool reg = some tool ∧
      stepRetryOutcome reg step st tool = (RunResult.ok v, counts2, tr) ∧
      lookupA step.id (execute_step reg step st).results =
        some ⟨step.id, StepStatus.completed, some v, none, 0, some step.tool⟩) ∨
    (∃ tool e counts2 tr,
      lookupA step.tool reg = some tool ∧
      stepRetryOutcome reg step st tool = (RunResult.err e, counts2, tr) ∧
      lookupA step.id (execute_step reg step st).results =
        some ⟨step.id, StepStatus.failed, none, some e, 0, none⟩) := by
  unfold execute_step
  cases hreg : lookupA step.tool reg with
  | none =>
      left
      simp [lookupA_insertA_self]
  | some tool =>
      cases hout : stepRetryOutcome reg step st tool with
      | mk res rest =>
          cases rest with
          | mk counts2 tr =>
              cases res with
              | ok v =>
                  right; left
                  exact ⟨tool, v, counts2, tr, rfl, hout, by simp [hout, lookupA_insertA_self]⟩
              | err e =>
                  right; right
                  exact ⟨tool, e, counts2, tr, rfl, hout, by simp [hout, lookupA_insertA_self]⟩

/-! ## Claim C1 -/

/-- C1 (counterexample): in the fallback-chain scenario the successful
output `"ok"` is produced by fallback `f2` (the last trace event), yet
the recorded `tool_used` is the primary key `"p"`, not `"f2"` — the
claim that `tool_used` names the fallback that produced success is
false. -/
theorem C1_counterexample :
    lookupA "s" (execute_step regFb stepFb stS).results =
      some ⟨"s", StepStatus.completed, some (Value.vstr "ok"), none, 0, some "p"⟩ ∧
    (execute_step regFb stepFb stS).trace.getLast? =
      some (Event.fallback "f2" (RunResult.ok (Value.vstr "ok"))) ∧
    (some "p" : Option String) ≠ some "f2" := by
  refine ⟨by decide, by decide, by decide⟩

/-- C1 (amended): whenever `_execute_step` records a COMPLETED result
for a step, the recorded `tool_used` is always the primary tool's
registry key `step.tool`, even when a fallback tool produced the
successful output. -/
theorem C1_tool_used_is_primary_key (reg : Registry) (step : StepConfig) (st : SchedState)
    (r : StepResult) (h : lookupA step.id (execute_step reg step st).results = some r)
    (hc : r.status = StepStatus.completed) : r.tool_used = some step.tool := by
  rcases execute_step_lookup_self reg step st with ⟨h1, _⟩ | ⟨_, _, _, _, _, _, h1⟩ |
      ⟨_, _, _, _, _, _, h1⟩ <;> rw [h1] at h <;>
    cases h <;> first | rfl | exact absurd hc (by simp)

/-- C1 (witness): the amended theorem applied to the fallback-chain
scenario. -/
theorem C1_witness :
    lookupA "s" (execute_step regFb stepFb stS).results =
      some ⟨"s", StepStatus.completed, some (Value.vstr "ok"), none, 0, some "p"⟩ ∧
    (⟨"s", StepStatus.completed, some (Value.vstr "ok"), none, 0, some "p"⟩ :
        StepResult).tool_used = some "p" :=
  ⟨by decide, C1_tool_used_is_primary_key regFb stepFb stS _ (by decide) (by decide)⟩

/-! ## Claim C4 -/

/-- C4 (counterexample): in the retry-success scenario (primary fails
twice, succeeds on the third attempt, `retry_count=2` configured) the
step completes but the recorded `retry_count` field is `0`, not the `2`
attempts actually spent. -/
theorem C4_counterexample :
    (lookupA "s" (execute_step regRetry stepRetry stS).results).map
        (fun r => r.status) = some StepStatus.completed ∧
    (lookupA "s" (execute_step regRetry stepRetry stS).results).map
        (fun r => r.retry_count) = some 0 ∧
    (lookupA "s" (execute_step regRetry stepRetry stS).results).map
        (fun r => r.retry_count) ≠ some 2 := by
  refine ⟨by decide, by decide, by decide⟩

/-- C4 (amended): the StepResult recorded by `_execute_step` always has
`retry_count = 0` (the dataclass default) — the field never records the
attempts actually spent. -/
theorem C4_retry_count_always_zero (reg : Registry) (step : StepConfig) (st : SchedState)
    (r : StepResult) (h : lookupA step.id (execute_step reg step st).results = some r) :
    r.retry_count = 0 := by
  rcases execute_step_lookup_self reg step st with ⟨h1, _⟩ | ⟨_, _, _, _, _, _, h1⟩ |
      ⟨_, _, _, _, _, _, h1⟩ <;> rw [h1] at h <;> cases h <;> rfl

/-- C4 (witness): the amended theorem applied to the retry-success
scenario. -/
theorem C4_witness :
    lookupA "s" (execute_step regRetry stepRetry stS).results =
      some ⟨"s", StepStatus.completed, some (Value.vstr "done"), none, 0, some "t"⟩ ∧
    (⟨"s", StepStatus.completed, some (Value.vstr "done"), none, 0, some "t"⟩ :
        StepResult).retry_count = 0 :=
  ⟨by decide, C4_retry_count_always_zero regRetry stepRetry stS _ (by decide)⟩

/-! ## Claim C3 -/

/-- C3 (code bug): after `set("a", 1)` the key is observable in the
global scope, but a second `set("b", 2)` on the global scope resets the
scope first (`if step_id not in self._context` tests the raw `None`
against the string keys and so always passes, recreating the
`"global"` scope empty), making the unexpired key `"a"` unobservable —
contradicting spec invariant (7) and the persistence lifecycle. -/
theorem C3_global_set_resets_scope :
    (((emptyCtx.set "a" (Value.vnat 1) none 0).get "a" none Value.vnone 0).1 = Value.vnat 1) ∧
    ((((emptyCtx.set "a" (Value.vnat 1) none 0).set "b" (Value.vnat 2) none 0).get
        "b" none Value.vnone 0).1 = Value.vnat 2) ∧
    ((((emptyCtx.set "a" (Value.vnat 1) none 0).set "b" (Value.vnat 2) none 0).get
        "a" none Value.vnone 0).1 = Value.vnone) ∧
    ((((emptyCtx.set "a" (Value.vnat 1) (some "s") 0).set "b" (Value.vnat 2) (some "s") 0).get
        "a" (some "s") Value.vnone 0).1 = Value.vnat 1) := by
  refine ⟨by decide, by decide, by decide, by decide⟩

/-! ## Claim C10 -/

/-- C10: a flow with an empty steps sequence always passes validation
and `execute_task` returns `success=true` with an empty `step_results`
mapping and an empty `error_summary`. -/
theorem C10_empty_flow_success (reg : Registry) (cm : ContextManager) (nm ds : String)
    (pgs : Option (List (List String))) :
    execute_task reg cm ⟨nm, ds, [], pgs⟩ = ⟨nm, true, [], []⟩ := by
  rfl

/-! ## Claim C2 -/

/-- C2 (counterexample): the flow whose single step has an empty tool
name violates structural invariant (4), yet the scheduler's own
re-validation returns no errors, `execute_task` proceeds to run the
step (it transitions PENDING→RUNNING→FAILED), and `error_summary` stays
empty — contradicting the claim that any invariant violation aborts
with the offending messages and leaves every step PENDING. -/
theorem C2_counterexample :
    scheduler_validate cfgEmptyTool = [] ∧
    execute_task [] emptyCtx cfgEmptyTool =
      ⟨"t", false,
        [("s", ⟨"s", StepStatus.failed, none, some ("Tool '' not found"), 0, none⟩)], []⟩ := by
  refine ⟨by decide, by decide⟩

/-- C2 (amended): before any step runs the scheduler re-checks only the
dependency invariant — `_validate_config` returns no errors iff every
dependency of every step references an existing step id — and on a
violation `execute_task` aborts with `success=false`, the offending
messages as `error_summary`, and an empty `step_results` mapping (so no
step leaves PENDING); the other structural invariants (unique ids,
parallel-group members, non-empty tool names) are not re-checked. -/
theorem C2_scheduler_revalidates_deps_only :
    (∀ cfg : TaskFlowConfig,
      (scheduler_validate cfg = [] ↔
        ∀ s ∈ cfg.steps, ∀ d ∈ s.dependencies, d ∈ cfg.steps.map (fun s => s.id))) ∧
    (∀ (reg : Registry) (cm : ContextManager) (cfg : TaskFlowConfig),
      scheduler_validate cfg ≠ [] →
      execute_task reg cm cfg = ⟨cfg.name, false, [], scheduler_validate cfg⟩) := by
  constructor
  · intro cfg
    unfold scheduler_validate
    simp [List.filter_eq_nil_iff]
  · intro reg cm cfg h
    unfold execute_task
    rw [if_neg h]

/-- C2 (witness): the amended theorem applied to the flow with a
dangling dependency. -/
theorem C2_witness :
    scheduler_validate cfgBadDep ≠ [] ∧
    execute_task [] emptyCtx cfgBadDep = ⟨"w", false, [], scheduler_validate cfgBadDep⟩ :=
  ⟨by decide, C2_scheduler_revalidates_deps_only.2 [] emptyCtx cfgBadDep (by decide)⟩

/-! ## Characterisation of the primary-attempt loop -/

theorem primaryShape_cons (key : String) (d : Rat) (r : RunResult) {rs : List RunResult}
    (h : rs ≠ []) :
    primaryShape key d (r :: rs) = Event.primary key r :: Event.sleep d :: primaryShape key d rs := by
  cases rs with
  | nil => exact absurd rfl h
  | cons r' rs' => rfl

/-- Manual one-step unfolding of `primaryLoop` at a positive remaining
count. -/
theorem primaryLoop_succ_eq (tool : Tool) (key : String) (input : Input) (ctxSnap : Ctx)
    (delay : Rat) (n : Nat) (counts : Counts) (lastErr : Option String) :
    primaryLoop tool key input ctxSnap delay (n + 1) counts lastErr =
      match tool.run ((lookupA key counts).getD 0) input ctxSnap with
      | RunResult.ok v =>
          (some v, lastErr, insertA key ((lookupA key counts).getD 0 + 1) counts,
            [Event.primary key (RunResult.ok v)])
      | RunResult.err e =>
          match primaryLoop tool key input ctxSnap delay n
              (insertA key ((lookupA key counts).getD 0 + 1) counts) (some e) with
          | (res, le, cts, tr) =>
              (res, le, cts,
                Event.primary key (RunResult.err e) ::
                  (if n = 0 then [] else [Event.sleep delay]) ++ tr) := rfl

/-- Full functional characterisation of `primaryLoop` called with
`n + 1` remaining attempts: the trace is an alternation of attempt
results and sleeps, every attempt before the last failed, a success is
returned iff the last attempt succeeded, and on exhaustion all `n + 1`
attempts failed with the last message captured. -/
theorem primaryLoop_spec (tool : Tool) (key : String) (input : Input) (ctxSnap : Ctx)
    (delay : Rat) :
    ∀ (n : Nat) (counts : Counts) (lastErr : Option String),
      ∃ rs : List RunResult,
        (primaryLoop tool key input ctxSnap delay (n + 1) counts lastErr).2.2.2 =
            primaryShape key delay rs ∧
        1 ≤ rs.length ∧ rs.length ≤ n + 1 ∧
        (∀ r ∈ rs.dropLast, ∃ e, r = RunResult.err e) ∧
        (∀ v, (primaryLoop tool key input ctxSnap delay (n + 1) counts lastErr).1 = some v ↔
            rs.getLast? = some (RunResult.ok v)) ∧
        ((primaryLoop tool key input ctxSnap delay (n + 1) counts lastErr).1 = none →
            rs.length = n + 1 ∧ (∀ r ∈ rs, ∃ e, r = RunResult.err e) ∧
            ∃ e, rs.getLast? = some (RunResult.err e) ∧
              (primaryLoop tool key input ctxSnap delay (n + 1) counts lastErr).2.1 = some e) := by
  intro n
  induction n with
  | zero =>
      intro counts lastErr
      rw [primaryLoop_succ_eq]
      cases hrun : tool.run ((lookupA key counts).getD 0) input ctxSnap with
      | ok v =>
          exact ⟨[RunResult.ok v], rfl, by simp, by simp, by simp, by simp, by simp⟩
      | err e =>
          refine ⟨[RunResult.err e], ?_, by simp, by simp, by simp, by simp [primaryLoop], ?_⟩
          · simp [primaryLoop, primaryShape]
          · intro _
            exact ⟨rfl, by simp, e, rfl, by simp [primaryLoop]⟩
  | succ m ih =>
      intro counts lastErr
      rw [primaryLoop_succ_eq]
      cases hrun : tool.run ((lookupA key counts).getD 0) input ctxSnap with
      | ok v =>
          exact ⟨[RunResult.ok v], rfl, by simp, by simp, by simp, by simp, by simp⟩
      | err e =>
          obtain ⟨rs', h1, h2, h3, h4, h5, h6⟩ :=
            ih (insertA key ((lookupA key counts).getD 0 + 1) counts) (some e)
          have hne : rs' ≠ [] := by
            intro hh
            rw [hh] at h2
            simp at h2
          obtain ⟨r0, rs0, rfl⟩ := List.exists_cons_of_ne_nil hne
          rcases hrec : primaryLoop tool key input ctxSnap delay (m + 1)
              (insertA key ((lookupA key counts).getD 0 + 1) counts) (some e) with
            ⟨res, le, cts, tr⟩
          rw [hrec] at h1 h5 h6
          dsimp only at h1 h5 h6
          dsimp only
          rw [hrec]
          dsimp only
          rw [if_neg (Nat.succ_ne_zero m)]
          refine ⟨RunResult.err e :: r0 :: rs0, ?_, by simp, ?_, ?_, ?_, ?_⟩
          · show (Event.primary key (RunResult.err e) :: [Event.sleep delay]) ++ tr =
              primaryShape key delay (RunResult.err e :: r0 :: rs0)
            rw [h1]
            rfl
          · simpa using Nat.succ_le_succ h3
          · intro r hr
            simp only [List.dropLast_cons₂, List.mem_cons] at hr
            rcases hr with rfl | hr
            · exact ⟨e, rfl⟩
            · exact h4 r (by simpa using hr)
          · intro v
            rw [List.getLast?_cons_cons]
            exact h5 v
          · intro hnone
            obtain ⟨g1, g2, g3, g4, g5⟩ := h6 hnone
            refine ⟨by simp [g1], ?_, g3, ?_, g5⟩
            · intro r hr
              rw [List.mem_cons] at hr
              rcases hr with rfl | hr
              · exact ⟨e, rfl⟩
              · exact g2 r hr
            · rw [List.getLast?_cons_cons]
              exact g4

theorem mem_dropLast_cons {α : Type} {e x : α} {l : List α}
    (h : e ∈ (x :: l).dropLast) : e = x ∨ e ∈ l.dropLast := by
  cases l with
  | nil => simp at h
  | cons y ys =>
      rw [List.dropLast_cons₂, List.mem_cons] at h
      exact h

/-! ## Characterisation of the fallback loop -/

/-- Full characterisation of `fallbackLoop`: its trace is one event per
name for some prefix `pre` of the declared fallback list, in order —
a skip event for names absent from the registry, a single attempt event
for present ones — with no sleeps, no successful attempt before the
last event, success returned iff the last event is a successful attempt,
and on overall failure the whole list was consumed with no success. -/
theorem fallbackLoop_spec (reg : Registry) (input : Input) (ctxSnap : Ctx) :
    ∀ (names : List String) (counts : Counts),
      ∃ pre rest : List String,
        names = pre ++ rest ∧
        List.Forall₂ (fbMatches reg) pre (fallbackLoop reg input ctxSnap names counts).2.2 ∧
        (∀ e ∈ (fallbackLoop reg input ctxSnap names counts).2.2, ∀ d, e ≠ Event.sleep d) ∧
        (∀ e ∈ (fallbackLoop reg input ctxSnap names counts).2.2.dropLast, ∀ k v,
          e ≠ Event.fallback k (RunResult.ok v)) ∧
        (∀ v, (fallbackLoop reg input ctxSnap names counts).1 = some v ↔
          ∃ k, (fallbackLoop reg input ctxSnap names counts).2.2.getLast? =
            some (Event.fallback k (RunResult.ok v))) ∧
        ((fallbackLoop reg input ctxSnap names counts).1 = none →
          rest = [] ∧ ∀ e ∈ (fallbackLoop reg input ctxSnap names counts).2.2, ∀ k v,
            e ≠ Event.fallback k (RunResult.ok v)) := by
  intro names
  induction names with
  | nil =>
      intro counts
      exact ⟨[], [], rfl, List.Forall₂.nil, by simp [fallbackLoop], by simp [fallbackLoop],
        by simp [fallbackLoop], fun _ => ⟨rfl, by simp [fallbackLoop]⟩⟩
  | cons name rest0 ihn =>
      intro counts
      cases hlook : lookupA name reg with
      | none =>
          obtain ⟨pre', rest', hsplit, hfa, hsl, hdl, hiff, hnone⟩ := ihn counts
          rcases hrec : fallbackLoop reg input ctxSnap rest0 counts with ⟨res, cts, tr⟩
          rw [hrec] at hfa hsl hdl hiff hnone
          dsimp only at hfa hsl hdl hiff hnone
          have hout : fallbackLoop reg input ctxSnap (name :: rest0) counts =
              (res, cts, Event.fallbackMissing name :: tr) := by
            simp only [fallbackLoop, hlook, hrec]
          rw [hout]
          refine ⟨name :: pre', rest', by simp [hsplit], ?_, ?_, ?_, ?_, ?_⟩
          · exact List.Forall₂.cons (Or.inl ⟨hlook, rfl⟩) hfa
          · intro e he d
            rw [List.mem_cons] at he
            rcases he with rfl | he
            · simp
            · exact hsl e he d
          · intro e he k v
            rcases mem_dropLast_cons he with rfl | he
            · simp
            · exact hdl e he k v
          · intro v
            cases tr with
            | nil =>
                have hv := hiff v
                simp only [List.getLast?_nil] at hv
                simp only [List.getLast?_singleton]
                simp at hv ⊢
                exact hv
            | cons t1 ts =>
                rw [List.getLast?_cons_cons]
                exact hiff v
          · intro h0
            obtain ⟨hr', hno⟩ := hnone h0
            refine ⟨hr', ?_⟩
            intro e he k v
            rw [List.mem_cons] at he
            rcases he with rfl | he
            · simp
            · exact hno e he k v
      | some t =>
          cases hrun : t.run ((lookupA name counts).getD 0) input ctxSnap with
          | ok v =>
              have hout : fallbackLoop reg input ctxSnap (name :: rest0) counts =
                  (some v, insertA name ((lookupA name counts).getD 0 + 1) counts,
                    [Event.fallback name (RunResult.ok v)]) := by
                simp only [fallbackLoop, hlook, bumpCount, hrun]
              rw [hout]
              refine ⟨[name], rest0, rfl, ?_, by simp, by simp, ?_, by simp⟩
              · exact List.Forall₂.cons (Or.inr ⟨t, RunResult.ok v, hlook, rfl⟩)
                  List.Forall₂.nil
              · intro v'
                simp only [List.getLast?_singleton]
                constructor
                · intro hv
                  cases hv
                  exact ⟨name, rfl⟩
                · rintro ⟨k, hk⟩
                  cases hk
                  rfl
          | err e =>
              obtain ⟨pre', rest', hsplit, hfa, hsl, hdl, hiff, hnone⟩ :=
                ihn (insertA name ((lookupA name counts).getD 0 + 1) counts)
              rcases hrec : fallbackLoop reg input ctxSnap rest0
                  (insertA name ((lookupA name counts).getD 0 + 1) counts) with ⟨res, cts, tr⟩
              rw [hrec] at hfa hsl hdl hiff hnone
              dsimp only at hfa hsl hdl hiff hnone
              have hout : fallbackLoop reg input ctxSnap (name :: rest0) counts =
                  (res, cts, Event.fallback name (RunResult.err e) :: tr) := by
                simp only [fallbackLoop, hlook, bumpCount, hrun, hrec]
              rw [hout]
              refine ⟨name :: pre', rest', by simp [hsplit], ?_, ?_, ?_, ?_, ?_⟩
              · exact List.Forall₂.cons (Or.inr ⟨t, RunResult.err e, hlook, rfl⟩) hfa
              · intro ev he d
                rw [List.mem_cons] at he
                rcases he with rfl | he
                · simp
                · exact hsl ev he d
              · intro ev he k v
                rcases mem_dropLast_cons he with rfl | he
                · simp
                · exact hdl ev he k v
              · intro v
                cases tr with
                | nil =>
                    have hv := hiff v
                    simp only [List.getLast?_nil] at hv
                    simp only [List.getLast?_singleton]
                    simp at hv ⊢
                    exact hv
                | cons t1 ts =>
                    rw [List.getLast?_cons_cons]
                    exact hiff v
              · intro h0
                obtain ⟨hr', hno⟩ := hnone h0
                refine ⟨hr', ?_⟩
                intro ev he k v
                rw [List.mem_cons] at he
                rcases he with rfl | he
                · simp
                · exact hno ev he k v

/-! ## Claim C5 -/

/-- C5: for a step whose primary tool is present in the registry, the
retry/fallback machinery makes at most `1 + retry_count` primary
attempts whose trace interleaves exactly one `retry_delay` sleep between
consecutive attempts (`primaryShape`), retries only after failures, and
short-circuits on primary success; only once every primary attempt has
failed does it process `fallback_tools` in declared order, producing one
event per processed name — a silent skip for a name absent from the
registry, a single attempt otherwise — with no sleeps between fallbacks,
no successful fallback attempt before the last processed one, and the
first fallback success adopted as the returned output. The fallback
phase is forced and exhaustive: when the overall result is an error,
every declared fallback name was processed (`rest = []`); when the
overall result is a success, it came either from the last primary
attempt (with no fallback phase) or from a final successful fallback
event; and once every primary attempt has failed, a non-empty declared
fallback list guarantees a non-empty fallback phase. -/
theorem C5_retry_fallback_policy (reg : Registry) (cm : ContextManager) (tool : Tool)
    (step : StepConfig) (input : Input) (counts : Counts)
    (h : lookupA step.tool reg = some tool) :
    ∃ (rs : List RunResult) (pre rest : List String) (tr2 : List Event),
      (execute_with_retry reg cm tool step.tool input step counts).2.2 =
          primaryShape step.tool step.retry_delay rs ++ tr2 ∧
      1 ≤ rs.length ∧ rs.length ≤ 1 + step.retry_count ∧
      (∀ r ∈ rs.dropLast, ∃ e, r = RunResult.err e) ∧
      (∀ v, rs.getLast? = some (RunResult.ok v) →
        (execute_with_retry reg cm tool step.tool input step counts).1 = RunResult.ok v ∧
        tr2 = []) ∧
      step.fallback_tools.getD [] = pre ++ rest ∧
      List.Forall₂ (fbMatches reg) pre tr2 ∧
      (tr2 ≠ [] → rs.length = 1 + step.retry_count ∧ ∀ r ∈ rs, ∃ e, r = RunResult.err e) ∧
      (∀ e ∈ tr2, ∀ d, e ≠ Event.sleep d) ∧
      (∀ e ∈ tr2.dropLast, ∀ k v, e ≠ Event.fallback k (RunResult.ok v)) ∧
      (∀ k v, tr2.getLast? = some (Event.fallback k (RunResult.ok v)) →
        (execute_with_retry reg cm tool step.tool input step counts).1 = RunResult.ok v) ∧
      (∀ e, (execute_with_retry reg cm tool step.tool input step counts).1 =
          RunResult.err e → rest = []) ∧
      (∀ v, (execute_with_retry reg cm tool step.tool input step counts).1 =
          RunResult.ok v →
        (tr2 = [] ∧ rs.getLast? = some (RunResult.ok v)) ∨
        ∃ k, tr2.getLast? = some (Event.fallback k (RunResult.ok v))) ∧
      ((∀ r ∈ rs, ∃ e, r = RunResult.err e) →
        step.fallback_tools.getD [] ≠ [] → tr2 ≠ []) := by
  clear h
  obtain ⟨rs, p1, p2, p3, p4, p5, p6⟩ :=
    primaryLoop_spec tool step.tool input (cm.get_all none 0) step.retry_delay
      step.retry_count counts none
  rcases hp : primaryLoop tool step.tool input (cm.get_all none 0) step.retry_delay
      (step.retry_count + 1) counts none with ⟨pres, lastE, counts1, tr1⟩
  rw [hp] at p1 p5 p6
  dsimp only at p1 p5 p6
  cases pres with
  | some v =>
      have hout : execute_with_retry reg cm tool step.tool input step counts =
          (RunResult.ok v, counts1, tr1) := by
        simp only [execute_with_retry, hp]
      refine ⟨rs, [], step.fallback_tools.getD [], [], ?_, p2, by omega, p4, ?_, rfl,
        List.Forall₂.nil, by simp, by simp, by simp, by simp, ?_, ?_, ?_⟩
      · rw [hout]
        simp [p1]
      · intro v' hlast
        have hv := (p5 v').mpr hlast
        cases hv
        exact ⟨by rw [hout], rfl⟩
      · intro e he
        rw [hout] at he
        dsimp only at he
        cases he
      · intro v' hv
        rw [hout] at hv
        dsimp only at hv
        cases hv
        exact Or.inl ⟨rfl, (p5 v).mp rfl⟩
      · intro hall _
        obtain ⟨e, he⟩ := hall _ (List.mem_of_mem_getLast? ((p5 v).mp rfl))
        cases he
  | none =>
      obtain ⟨q1, q2, e0, q3, q4⟩ := p6 rfl
      cases hfb : step.fallback_tools with
      | none =>
          have hout : execute_with_retry reg cm tool step.tool input step counts =
              (RunResult.err (lastE.getD "All execution attempts failed"), counts1, tr1) := by
            simp only [execute_with_retry, hp, hfb]
          refine ⟨rs, [], [], [], ?_, p2, by omega, p4, ?_, by simp, List.Forall₂.nil,
            by simp, by simp, by simp, by simp, fun _ _ => rfl, ?_, ?_⟩
          · rw [hout]
            simp [p1]
          · intro v' hlast
            rw [q3] at hlast
            cases hlast
          · intro v' hv
            rw [hout] at hv
            dsimp only at hv
            cases hv
          · intro _ hne
            simp [hfb] at hne
      | some fbs =>
          cases fbs with
          | nil =>
              have hout : execute_with_retry reg cm tool step.tool input step counts =
                  (RunResult.err (lastE.getD "All execution attempts failed"), counts1,
                    tr1) := by
                simp only [execute_with_retry, hp, hfb]
              refine ⟨rs, [], [], [], ?_, p2, by omega, p4, ?_, by simp, List.Forall₂.nil,
                by simp, by simp, by simp, by simp, fun _ _ => rfl, ?_, ?_⟩
              · rw [hout]
                simp [p1]
              · intro v' hlast
                rw [q3] at hlast
                cases hlast
              · intro v' hv
                rw [hout] at hv
                dsimp only at hv
                cases hv
              · intro _ hne
                simp [hfb] at hne
          | cons f fs =>
              obtain ⟨pre, rest, hsplit, hfa, hsl, hdl, hiff, hnone⟩ :=
                fallbackLoop_spec reg input (cm.get_all none 0) (f :: fs) counts1
              rcases hq : fallbackLoop reg input (cm.get_all none 0) (f :: fs) counts1 with
                ⟨fres, counts2, tr2⟩
              rw [hq] at hfa hsl hdl hiff hnone
              dsimp only at hfa hsl hdl hiff hnone
              cases fres with
              | some w =>
                  have hout : execute_with_retry reg cm tool step.tool input step counts =
                      (RunResult.ok w, counts2, tr1 ++ tr2) := by
                    simp only [execute_with_retry, hp, hfb, hq]
                  refine ⟨rs, pre, rest, tr2, ?_, p2, by omega, p4, ?_,
                    by simpa using hsplit, hfa, ?_, hsl, hdl, ?_, ?_, ?_, ?_⟩
                  · rw [hout, p1]
                  · intro v' hlast
                    rw [q3] at hlast
                    cases hlast
                  · intro _
                    exact ⟨by omega, q2⟩
                  · intro k v hlast
                    obtain ⟨k0, hk0⟩ := (hiff w).mp rfl
                    rw [hlast] at hk0
                    cases hk0
                    rw [hout]
                  · intro e he
                    rw [hout] at he
                    dsimp only at he
                    cases he
                  · intro v' hv
                    rw [hout] at hv
                    dsimp only at hv
                    cases hv
                    exact Or.inr ((hiff w).mp rfl)
                  · intro _ _
                    obtain ⟨k0, hk0⟩ := (hiff w).mp rfl
                    intro h0
                    rw [h0] at hk0
                    simp at hk0
              | none =>
                  have hout : execute_with_retry reg cm tool step.tool input step counts =
                      (RunResult.err (lastE.getD "All execution attempts failed"), counts2,
                        tr1 ++ tr2) := by
                    simp only [execute_with_retry, hp, hfb, hq]
                  refine ⟨rs, pre, rest, tr2, ?_, p2, by omega, p4, ?_,
                    by simpa using hsplit, hfa, ?_, hsl, hdl, ?_, ?_, ?_, ?_⟩
                  · rw [hout, p1]
                  · intro v' hlast
                    rw [q3] at hlast
                    cases hlast
                  · intro _
                    exact ⟨by omega, q2⟩
                  · intro k v hlast
                    obtain ⟨-, hno⟩ := hnone rfl
                    exact absurd rfl (hno _ (List.mem_of_mem_getLast? hlast) k v)
                  · intro e he
                    exact (hnone rfl).1
                  · intro v' hv
                    rw [hout] at hv
                    dsimp only at hv
                    cases hv
                  · intro _ _
                    have hr0 := (hnone rfl).1
                    have hlen := List.Forall₂.length_eq hfa
                    intro h0
                    rw [h0] at hlen
                    rw [hr0, List.append_nil] at hsplit
                    rw [← hsplit] at hlen
                    simp at hlen

/-- C5 (witness): the policy theorem applied to the fallback-chain
scenario (primary `p` present in the registry, `retry_count=1`,
fallbacks `["f1","f2"]`), together with the concrete outcome of that
run: two failing primary attempts with a sleep between them, both
declared fallbacks processed in order, and the second fallback's
success adopted as the output. -/
theorem C5_witness :
    lookupA stepFb.tool regFb = some (toolFail "boom") ∧
    (execute_with_retry regFb emptyCtx (toolFail "boom") stepFb.tool [] stepFb []).1 =
      RunResult.ok (Value.vstr "ok") ∧
    (execute_with_retry regFb emptyCtx (toolFail "boom") stepFb.tool [] stepFb []).2.2 =
      [Event.primary "p" (RunResult.err "boom"), Event.sleep 0,
        Event.primary "p" (RunResult.err "boom"),
        Event.fallback "f1" (RunResult.err "f1err"),
        Event.fallback "f2" (RunResult.ok (Value.vstr "ok"))] ∧
    (∃ (rs : List RunResult) (pre rest : List String) (tr2 : List Event),
      (execute_with_retry regFb emptyCtx (toolFail "boom") stepFb.tool [] stepFb []).2.2 =
          primaryShape stepFb.tool stepFb.retry_delay rs ++ tr2 ∧
      1 ≤ rs.length ∧ rs.length ≤ 1 + stepFb.retry_count ∧
      (∀ r ∈ rs.dropLast, ∃ e, r = RunResult.err e) ∧
      (∀ v, rs.getLast? = some (RunResult.ok v) →
        (execute_with_retry regFb emptyCtx (toolFail "boom") stepFb.tool [] stepFb []).1 =
          RunResult.ok v ∧ tr2 = []) ∧
      stepFb.fallback_tools.getD [] = pre ++ rest ∧
      List.Forall₂ (fbMatches regFb) pre tr2 ∧
      (tr2 ≠ [] → rs.length = 1 + stepFb.retry_count ∧ ∀ r ∈ rs, ∃ e, r = RunResult.err e) ∧
      (∀ e ∈ tr2, ∀ d, e ≠ Event.sleep d) ∧
      (∀ e ∈ tr2.dropLast, ∀ k v, e ≠ Event.fallback k (RunResult.ok v)) ∧
      (∀ k v, tr2.getLast? = some (Event.fallback k (RunResult.ok v)) →
        (execute_with_retry regFb emptyCtx (toolFail "boom") stepFb.tool [] stepFb []).1 =
          RunResult.ok v) ∧
      (∀ e, (execute_with_retry regFb emptyCtx (toolFail "boom") stepFb.tool [] stepFb []).1 =
          RunResult.err e → rest = []) ∧
      (∀ v, (execute_with_retry regFb emptyCtx (toolFail "boom") stepFb.tool [] stepFb []).1 =
          RunResult.ok v →
        (tr2 = [] ∧ rs.getLast? = some (RunResult.ok v)) ∨
        ∃ k, tr2.getLast? = some (Event.fallback k (RunResult.ok v))) ∧
      ((∀ r ∈ rs, ∃ e, r = RunResult.err e) →
        stepFb.fallback_tools.getD [] ≠ [] → tr2 ≠ [])) :=
  ⟨rfl, by decide, by decide,
    C5_retry_fallback_policy regFb emptyCtx (toolFail "boom") stepFb [] [] rfl⟩

/-! ## Claim C6 -/

/-- C6 (counterexample): in the fallback-exhaustion scenario the last
error raised across the attempts is the fallback's `"ferr"` (the final
trace event), but the step's recorded error is the primary's `"perr"` —
fallback errors are never captured into `last_error`, so the claim that
the error equals the last error across *those* (primary and fallback)
attempts is false. -/
theorem C6_counterexample :
    lookupA "s" (execute_step regExh stepExh stS).results =
      some ⟨"s", StepStatus.failed, none, some "perr", 0, none⟩ ∧
    (execute_step regExh stepExh stS).trace =
      [Event.primary "p" (RunResult.err "perr"),
        Event.fallback "f" (RunResult.err "ferr")] ∧
    "perr" ≠ "ferr" := by
  refine ⟨by decide, by decide, by decide⟩

/-- C6 (amended): when every primary and every fallback attempt fails,
the retry machinery raises the message of the *last primary* error: the
returned error is the last entry of the primary attempt sequence, all
`1 + retry_count` primary attempts failed, and no fallback attempt
succeeded (fallback errors are logged but never captured). -/
theorem C6_error_is_last_primary_error (reg : Registry) (cm : ContextManager) (tool : Tool)
    (step : StepConfig) (input : Input) (counts : Counts)
    (h : lookupA step.tool reg = some tool) (e : String)
    (he : (execute_with_retry reg cm tool step.tool input step counts).1 = RunResult.err e) :
    ∃ (rs : List RunResult) (tr2 : List Event),
      (execute_with_retry reg cm tool step.tool input step counts).2.2 =
          primaryShape step.tool step.retry_delay rs ++ tr2 ∧
      rs.length = 1 + step.retry_count ∧
      (∀ r ∈ rs, ∃ m, r = RunResult.err m) ∧
      rs.getLast? = some (RunResult.err e) ∧
      (∀ ev ∈ tr2, ∀ k v, ev ≠ Event.fallback k (RunResult.ok v)) := by
  clear h
  obtain ⟨rs, p1, p2, p3, p4, p5, p6⟩ :=
    primaryLoop_spec tool step.tool input (cm.get_all none 0) step.retry_delay
      step.retry_count counts none
  rcases hp : primaryLoop tool step.tool input (cm.get_all none 0) step.retry_delay
      (step.retry_count + 1) counts none with ⟨pres, lastE, counts1, tr1⟩
  rw [hp] at p1 p5 p6
  dsimp only at p1 p5 p6
  cases pres with
  | some v =>
      have hout : execute_with_retry reg cm tool step.tool input step counts =
          (RunResult.ok v, counts1, tr1) := by
        simp only [execute_with_retry, hp]
      rw [hout] at he
      cases he
  | none =>
      obtain ⟨q1, q2, e0, q3, q4⟩ := p6 rfl
      cases hfb : step.fallback_tools with
      | none =>
          have hout : execute_with_retry reg cm tool step.tool input step counts =
              (RunResult.err (lastE.getD "All execution attempts failed"), counts1, tr1) := by
            simp only [execute_with_retry, hp, hfb]
          rw [hout, q4] at he
          cases he
          exact ⟨rs, [], by rw [hout]; simp [p1], by omega, q2, q3, by simp⟩
      | some fbs =>
          cases fbs with
          | nil =>
              have hout : execute_with_retry reg cm tool step.tool input step counts =
                  (RunResult.err (lastE.getD "All execution attempts failed"), counts1,
                    tr1) := by
                simp only [execute_with_retry, hp, hfb]
              rw [hout, q4] at he
              cases he
              exact ⟨rs, [], by rw [hout]; simp [p1], by omega, q2, q3, by simp⟩
          | cons f fs =>
              obtain ⟨pre, rest, hsplit, hfa, hsl, hdl, hiff, hnone⟩ :=
                fallbackLoop_spec reg input (cm.get_all none 0) (f :: fs) counts1
              rcases hq : fallbackLoop reg input (cm.get_all none 0) (f :: fs) counts1 with
                ⟨fres, counts2, tr2⟩
              rw [hq] at hfa hsl hdl hiff hnone
              dsimp only at hfa hsl hdl hiff hnone
              cases fres with
              | some w =>
                  have hout : execute_with_retry reg cm tool step.tool input step counts =
                      (RunResult.ok w, counts2, tr1 ++ tr2) := by
                    simp only [execute_with_retry, hp, hfb, hq]
                  rw [hout] at he
                  cases he
              | none =>
                  have hout : execute_with_retry reg cm tool step.tool input step counts =
                      (RunResult.err (lastE.getD "All execution attempts failed"), counts2,
                        tr1 ++ tr2) := by
                    simp only [execute_with_retry, hp, hfb, hq]
                  rw [hout, q4] at he
                  cases he
                  exact ⟨rs, tr2, by rw [hout, p1], by omega, q2, q3, (hnone rfl).2⟩

/-- C6 (witness): the amended theorem applied to the
fallback-exhaustion scenario. -/
theorem C6_witness :
    lookupA stepExh.tool regExh = some (toolFail "perr") ∧
    (execute_with_retry regExh emptyCtx (toolFail "perr") stepExh.tool [] stepExh []).1 =
      RunResult.err "perr" ∧
    (∃ (rs : List RunResult) (tr2 : List Event),
      (execute_with_retry regExh emptyCtx (toolFail "perr") stepExh.tool [] stepExh []).2.2 =
          primaryShape stepExh.tool stepExh.retry_delay rs ++ tr2 ∧
      rs.length = 1 + stepExh.retry_count ∧
      (∀ r ∈ rs, ∃ m, r = RunResult.err m) ∧
      rs.getLast? = some (RunResult.err "perr") ∧
      (∀ ev ∈ tr2, ∀ k v, ev ≠ Event.fallback k (RunResult.ok v))) :=
  ⟨rfl, by decide,
    C6_error_is_last_primary_error regExh emptyCtx (toolFail "perr") stepExh [] [] rfl
      "perr" (by decide)⟩

/-! ## Lemmas about the ready-step scan -/

theorem isPending_iff (res : Results) (id : String) :
    isPending res id = true ↔
      ∃ r, lookupA id res = some r ∧ r.status = StepStatus.pending := by
  unfold isPending
  cases h : lookupA id res with
  | none => simp
  | some r => simp [beq_iff_eq]

theorem lookupA_setStatus_self {res : Results} {id : String} {s : StepStatus} {r : StepResult}
    (h : lookupA id res = some r) :
    lookupA id (setStatus res id s) = some { r with status := s } := by
  unfold setStatus
  rw [h]
  exact lookupA_insertA_self id _ res

theorem lookupA_setStatus_ne {res : Results} {id id' : String} {s : StepStatus}
    (h : id ≠ id') : lookupA id (setStatus res id' s) = lookupA id res := by
  unfold setStatus
  cases lookupA id' res with
  | none => rfl
  | some r => exact lookupA_insertA_ne _ res h

/-- How one ready-scan can change one entry: either it is untouched, or
it was PENDING (its id naming a scanned step) and was marked SKIPPED
with all other fields preserved. -/
theorem scanReady_evolution (steps : List StepConfig) (res : Results) (id : String) :
    lookupA id (scanReady steps res).2 = lookupA id res ∨
    (id ∈ steps.map (fun s => s.id) ∧ ∃ r, lookupA id res = some r ∧
      r.status = StepStatus.pending ∧
      lookupA id (scanReady steps res).2 = some { r with status := StepStatus.skipped }) := by
  induction steps generalizing res with
  | nil => exact Or.inl rfl
  | cons step rest ih =>
      show lookupA id (scanReady (step :: rest) res).2 = _ ∨ _
      by_cases hp : isPending res step.id
      · by_cases hd : depsCompleted res step
        · by_cases hc : check_condition step res
          · have hscan : (scanReady (step :: rest) res).2 = (scanReady rest res).2 := by
              simp only [scanReady, hp, hd, hc, if_true]
            rw [hscan]
            rcases ih res with h | ⟨hm, r, h1, h2, h3⟩
            · exact Or.inl h
            · exact Or.inr ⟨by simp [hm], r, h1, h2, h3⟩
          · have hscan : (scanReady (step :: rest) res).2 =
                (scanReady rest (setStatus res step.id StepStatus.skipped)).2 := by
              simp only [scanReady, hp, hd, hc, if_true, if_false, Bool.false_eq_true]
            rw [hscan]
            obtain ⟨r0, hr0, hr0p⟩ := (isPending_iff res step.id).mp hp
            rcases ih (setStatus res step.id StepStatus.skipped) with h | ⟨hm, r, h1, h2, h3⟩
            · by_cases hid : id = step.id
              · subst hid
                rw [h, lookupA_setStatus_self hr0]
                exact Or.inr ⟨by simp, r0, hr0, hr0p, rfl⟩
              · rw [h, lookupA_setStatus_ne hid]
                exact Or.inl rfl
            · by_cases hid : id = step.id
              · subst hid
                rw [lookupA_setStatus_self hr0] at h1
                cases h1
                simp at h2
              · rw [lookupA_setStatus_ne hid] at h1
                exact Or.inr ⟨by simp [hm], r, h1, h2, h3⟩
        · have hscan : (scanReady (step :: rest) res).2 = (scanReady rest res).2 := by
            simp only [scanReady, hp, hd, if_true, if_false, Bool.false_eq_true]
          rw [hscan]
          rcases ih res with h | ⟨hm, r, h1, h2, h3⟩
          · exact Or.inl h
          · exact Or.inr ⟨by simp [hm], r, h1, h2, h3⟩
      · have hscan : (scanReady (step :: rest) res).2 = (scanReady rest res).2 := by
          simp only [scanReady, hp, if_false, Bool.false_eq_true]
        rw [hscan]
        rcases ih res with h | ⟨hm, r, h1, h2, h3⟩
        · exact Or.inl h
        · exact Or.inr ⟨by simp [hm], r, h1, h2, h3⟩

/-- A non-PENDING entry is untouched by the ready-scan. -/
theorem scanReady_preserves_not_pending {steps : List StepConfig} {res : Results}
    {id : String} {r : StepResult} (h : lookupA id res = some r)
    (hs : r.status ≠ StepStatus.pending) :
    lookupA id (scanReady steps res).2 = some r := by
  rcases scanReady_evolution steps res id with hh | ⟨-, r', h1, h2, -⟩
  · rw [hh, h]
  · rw [h] at h1
    cases h1
    exact absurd h2 hs

/-- The ready-scan preserves key presence. -/
theorem scanReady_isSome {steps : List StepConfig} {res : Results} {id : String}
    (h : (lookupA id res).isSome) : (lookupA id (scanReady steps res).2).isSome := by
  rcases scanReady_evolution steps res id with hh | ⟨-, r', -, -, h3⟩
  · rwa [hh]
  · rw [h3]
    rfl

theorem scanReady_ready_mem {steps : List StepConfig} {res : Results} :
    ∀ s ∈ (scanReady steps res).1, s ∈ steps := by
  induction steps generalizing res with
  | nil => intro s hs; simp [scanReady] at hs
  | cons step rest ih =>
      intro s hs
      by_cases hp : isPending res step.id
      · by_cases hd : depsCompleted res step
        · by_cases hc : check_condition step res
          · have : (scanReady (step :: rest) res).1 = step :: (scanReady rest res).1 := by
              simp only [scanReady, hp, hd, hc, if_true]
            rw [this] at hs
            rcases hs with _ | hs
            · exact List.mem_cons_self step rest
            · exact List.mem_cons_of_mem _ (ih _ (by assumption))
          · have : (scanReady (step :: rest) res).1 =
                (scanReady rest (setStatus res step.id StepStatus.skipped)).1 := by
              simp only [scanReady, hp, hd, hc, if_true, if_false, Bool.false_eq_true]
            rw [this] at hs
            exact List.mem_cons_of_mem _ (ih _ hs)
        · have : (scanReady (step :: rest) res).1 = (scanReady rest res).1 := by
            simp only [scanReady, hp, hd, if_true, if_false, Bool.false_eq_true]
          rw [this] at hs
          exact List.mem_cons_of_mem _ (ih _ hs)
      · have : (scanReady (step :: rest) res).1 = (scanReady rest res).1 := by
          simp only [scanReady, hp, if_false, Bool.false_eq_true]
        rw [this] at hs
        exact List.mem_cons_of_mem _ (ih _ hs)

/-- With unique step ids, every step the scan designates ready is still
PENDING in the post-scan results. -/
theorem scanReady_ready_pending {steps : List StepConfig} {res : Results}
    (hn : (steps.map (fun s => s.id)).Nodup) :
    ∀ s ∈ (scanReady steps res).1, ∃ r,
      lookupA s.id (scanReady steps res).2 = some r ∧ r.status = StepStatus.pending := by
  induction steps generalizing res with
  | nil => intro s hs; simp [scanReady] at hs
  | cons step rest ih =>
      have hn' : (rest.map (fun s => s.id)).Nodup := (List.nodup_cons.mp hn).2
      have hnotin : step.id ∉ rest.map (fun s => s.id) := (List.nodup_cons.mp hn).1
      intro s hs
      by_cases hp : isPending res step.id
      · by_cases hd : depsCompleted res step
        · by_cases hc : check_condition step res
          · have h1 : (scanReady (step :: rest) res).1 = step :: (scanReady rest res).1 := by
              simp only [scanReady, hp, hd, hc, if_true]
            have h2 : (scanReady (step :: rest) res).2 = (scanReady rest res).2 := by
              simp only [scanReady, hp, hd, hc, if_true]
            rw [h1] at hs
            rw [h2]
            rcases hs with _ | hs
            · obtain ⟨r0, hr0, hr0p⟩ := (isPending_iff res step.id).mp hp
              rcases scanReady_evolution rest res step.id with hh | ⟨hm, -⟩
              · exact ⟨r0, by rw [hh, hr0], hr0p⟩
              · exact absurd hm hnotin
            · exact ih hn' s (by assumption)
          · have h1 : (scanReady (step :: rest) res).1 =
                (scanReady rest (setStatus res step.id StepStatus.skipped)).1 := by
              simp only [scanReady, hp, hd, hc, if_true, if_false, Bool.false_eq_true]
            have h2 : (scanReady (step :: rest) res).2 =
                (scanReady rest (setStatus res step.id StepStatus.skipped)).2 := by
              simp only [scanReady, hp, hd, hc, if_true, if_false, Bool.false_eq_true]
            rw [h1] at hs
            rw [h2]
            exact ih hn' s hs
        · have h1 : (scanReady (step :: rest) res).1 = (scanReady rest res).1 := by
            simp only [scanReady, hp, hd, if_true, if_false, Bool.false_eq_true]
          have h2 : (scanReady (step :: rest) res).2 = (scanReady rest res).2 := by
            simp only [scanReady, hp, hd, if_true, if_false, Bool.false_eq_true]
          rw [h1] at hs
          rw [h2]
          exact ih hn' s hs
      · have h1 : (scanReady (step :: rest) res).1 = (scanReady rest res).1 := by
          simp only [scanReady, hp, if_false, Bool.false_eq_true]
        have h2 : (scanReady (step :: rest) res).2 = (scanReady rest res).2 := by
          simp only [scanReady, hp, if_false, Bool.false_eq_true]
        rw [h1] at hs
        rw [h2]
        exact ih hn' s hs

/-! ## Frame lemmas about step execution and the wave loop -/

theorem execute_step_other {reg : Registry} {step : StepConfig} {st : SchedState} {id : String}
    (h : id ≠ step.id) :
    lookupA id (execute_step reg step st).results = lookupA id st.results := by
  unfold execute_step
  cases lookupA step.tool reg with
  | none =>
      dsimp only
      rw [lookupA_insertA_ne _ _ h, lookupA_insertA_ne _ _ h]
  | some tool =>
      dsimp only
      rcases hout : stepRetryOutcome reg step st tool with ⟨res, counts2, tr⟩
      cases res with
      | ok v =>
          dsimp only
          rw [lookupA_insertA_ne _ _ h, lookupA_insertA_ne _ _ h]
      | err e =>
          dsimp only
          rw [lookupA_insertA_ne _ _ h, lookupA_insertA_ne _ _ h]

theorem execute_step_log (reg : Registry) (step : StepConfig) (st : SchedState) :
    (execute_step reg step st).log = st.log ++ [step.id] := by
  unfold execute_step
  cases lookupA step.tool reg with
  | none => rfl
  | some tool =>
      dsimp only
      rcases hout : stepRetryOutcome reg step st tool with ⟨res, counts2, tr⟩
      cases res <;> rfl

theorem execute_step_isSome {reg : Registry} {step : StepConfig} {st : SchedState} {id : String}
    (h : (lookupA id st.results).isSome) :
    (lookupA id (execute_step reg step st).results).isSome := by
  by_cases hid : id = step.id
  · subst hid
    unfold execute_step
    cases lookupA step.tool reg with
    | none => simp [lookupA_insertA_self]
    | some tool =>
        dsimp only
        rcases hout : stepRetryOutcome reg step st tool with ⟨res, counts2, tr⟩
        cases res <;> simp [lookupA_insertA_self]
  · rw [execute_step_other hid]
    exact h

theorem runSeq_other {reg : Registry} {l : List StepConfig} {st : SchedState} {id : String}
    (h : ∀ t ∈ l, t.id ≠ id) :
    lookupA id (runSeq reg l st).results = lookupA id st.results := by
  induction l generalizing st with
  | nil => rfl
  | cons t rest ih =>
      show lookupA id (runSeq reg rest (execute_step reg t st)).results = _
      rw [ih (fun t' ht' => h t' (List.mem_cons_of_mem _ ht')),
        execute_step_other (fun hh => h t (List.mem_cons_self t rest) hh.symm)]

theorem runSeq_log (reg : Registry) (l : List StepConfig) (st : SchedState) :
    (runSeq reg l st).log = st.log ++ l.map (fun s => s.id) := by
  induction l generalizing st with
  | nil => simp [runSeq]
  | cons t rest ih =>
      show (runSeq reg rest (execute_step reg t st)).log = _
      rw [ih, execute_step_log]
      simp

theorem runSeq_isSome {reg : Registry} {l : List StepConfig} {st : SchedState} {id : String}
    (h : (lookupA id st.results).isSome) :
    (lookupA id (runSeq reg l st).results).isSome := by
  induction l generalizing st with
  | nil => exact h
  | cons t rest ih => exact ih (execute_step_isSome h)

theorem runGroups_other {reg : Registry} {groups : List (List StepConfig)} {st : SchedState}
    {id : String} (h : ∀ g ∈ groups, ∀ t ∈ g, t.id ≠ id) :
    lookupA id (runGroups reg groups st).results = lookupA id st.results := by
  induction groups generalizing st with
  | nil => rfl
  | cons g rest ih =>
      show lookupA id (runGroups reg rest (runSeq reg g st)).results = _
      rw [ih (fun g' hg' => h g' (List.mem_cons_of_mem _ hg')),
        runSeq_other (h g (List.mem_cons_self g rest))]

theorem runGroups_log (reg : Registry) (groups : List (List StepConfig)) (st : SchedState) :
    (runGroups reg groups st).log =
      st.log ++ (groups.map (fun g => g.map (fun s => s.id))).flatten := by
  induction groups generalizing st with
  | nil => simp [runGroups]
  | cons g rest ih =>
      show (runGroups reg rest (runSeq reg g st)).log = _
      rw [ih, runSeq_log]
      simp

theorem runGroups_isSome {reg : Registry} {groups : List (List StepConfig)} {st : SchedState}
    {id : String} (h : (lookupA id st.results).isSome) :
    (lookupA id (runGroups reg groups st).results).isSome := by
  induction groups generalizing st with
  | nil => exact h
  | cons g rest ih => exact ih (runSeq_isSome h)

theorem groupBy_mem :
    ∀ (pgs : List (List String)) (ready : List StepConfig) (used : List String),
      ∀ g ∈ (groupBy pgs ready used).1, ∀ s ∈ g, s ∈ ready := by
  intro pgs
  induction pgs with
  | nil => intro ready used g hg; simp [groupBy] at hg
  | cons gids rest ih =>
      intro ready used g hg s hs
      by_cases he :
          (ready.filter (fun s => gids.contains s.id && !(used.contains s.id))).isEmpty
      · have : (groupBy (gids :: rest) ready used).1 = (groupBy rest ready used).1 := by
          simp only [groupBy, he, if_true]
        rw [this] at hg
        exact ih ready used g hg s hs
      · have : (groupBy (gids :: rest) ready used).1 =
            (ready.filter (fun s => gids.contains s.id && !(used.contains s.id))) ::
              (groupBy rest ready
                (used ++ (ready.filter
                  (fun s => gids.contains s.id && !(used.contains s.id))).map
                    (fun s => s.id))).1 := by
          simp only [groupBy, he, if_false, Bool.false_eq_true]
        rw [this] at hg
        rcases hg with _ | hg
        · exact List.mem_of_mem_filter hs
        · exact ih ready _ g (by assumption) s hs

theorem group_parallel_steps_mem {ready : List StepConfig}
    {pgs : Option (List (List String))} :
    ∀ g ∈ group_parallel_steps ready pgs, ∀ s ∈ g, s ∈ ready := by
  intro g hg s hs
  cases pgs with
  | none =>
      simp only [group_parallel_steps, List.mem_map] at hg
      obtain ⟨s', hs', rfl⟩ := hg
      simp only [List.mem_singleton] at hs
      subst hs
      exact hs'
  | some pg =>
      cases pg with
      | nil =>
          simp only [group_parallel_steps, List.mem_map] at hg
          obtain ⟨s', hs', rfl⟩ := hg
          simp only [List.mem_singleton] at hs
          subst hs
          exact hs'
      | cons g0 gs =>
          simp only [group_parallel_steps, List.mem_append] at hg
          rcases hg with hg | hg
          · exact groupBy_mem (g0 :: gs) ready [] g hg s hs
          · simp only [List.mem_map] at hg
            obtain ⟨s', hs', rfl⟩ := hg
            simp only [List.mem_singleton] at hs
            subst hs
            exact List.mem_of_mem_filter hs' 

/-- The wave loop never touches an entry that is already terminal (not
PENDING), and never executes its step. -/
theorem waveLoop_preserves {reg : Registry} {cfg : TaskFlowConfig}
    (hn : (cfg.steps.map (fun s => s.id)).Nodup) :
    ∀ (fuel : Nat) (st : SchedState) (id : String) (r : StepResult),
      lookupA id st.results = some r → r.status ≠ StepStatus.pending →
      lookupA id (waveLoop reg cfg fuel st).results = some r ∧
      (id ∉ st.log → id ∉ (waveLoop reg cfg fuel st).log) := by
  intro fuel
  induction fuel with
  | zero => exact fun st id r h _ => ⟨h, fun hh => hh⟩
  | succ f ih =>
      intro st id r h hs
      rcases hscan : scanReady cfg.steps st.results with ⟨ready, results1⟩
      have hres1 : lookupA id results1 = some r := by
        have := @scanReady_preserves_not_pending cfg.steps st.results id r h hs
        rw [hscan] at this
        exact this
      have hloop : waveLoop reg cfg (f + 1) st =
          if ready.isEmpty then { st with results := results1 }
          else waveLoop reg cfg f
            (runGroups reg (group_parallel_steps ready cfg.parallel_groups)
              { st with results := results1 }) := by
        simp only [waveLoop, hscan]
      by_cases hrdy : ready.isEmpty
      · rw [hloop, if_pos hrdy]
        exact ⟨hres1, fun hh => hh⟩
      · rw [hloop, if_neg hrdy]
        have hready_pending : ∀ s ∈ ready, ∃ r', lookupA s.id results1 = some r' ∧
            r'.status = StepStatus.pending := by
          intro s hsm
          have := @scanReady_ready_pending cfg.steps st.results hn
          rw [hscan] at this
          exact this s hsm
        have hid_not : ∀ g ∈ group_parallel_steps ready cfg.parallel_groups,
            ∀ t ∈ g, t.id ≠ id := by
          intro g hg t ht heq
          obtain ⟨r', hr', hr'p⟩ := hready_pending t (group_parallel_steps_mem g hg t ht)
          rw [heq, hres1] at hr'
          cases hr'
          exact hs hr'p
        have hrun : lookupA id (runGroups reg
            (group_parallel_steps ready cfg.parallel_groups)
            { st with results := results1 }).results = some r := by
          rw [runGroups_other hid_not]
          exact hres1
        obtain ⟨hh1, hh2⟩ := ih _ id r hrun hs
        refine ⟨hh1, fun hnl => hh2 ?_⟩
        rw [runGroups_log]
        simp only [List.mem_append]
        rintro (hcase | hcase)
        · exact hnl hcase
        · simp only [List.mem_flatten, List.mem_map] at hcase
          obtain ⟨l, ⟨g, hg, rfl⟩, hil⟩ := hcase
          simp only [List.mem_map] at hil
          obtain ⟨t, ht, hteq⟩ := hil
          exact hid_not g hg t ht hteq

/-- The wave loop preserves key presence in `step_results`. -/
theorem waveLoop_isSome {reg : Registry} {cfg : TaskFlowConfig} :
    ∀ (fuel : Nat) (st : SchedState) (id : String),
      (lookupA id st.results).isSome →
      (lookupA id (waveLoop reg cfg fuel st).results).isSome := by
  intro fuel
  induction fuel with
  | zero => exact fun st id h => h
  | succ f ih =>
      intro st id h
      rcases hscan : scanReady cfg.steps st.results with ⟨ready, results1⟩
      have hres1 : (lookupA id results1).isSome := by
        have := @scanReady_isSome cfg.steps st.results id h
        rw [hscan] at this
        exact this
      have hloop : waveLoop reg cfg (f + 1) st =
          if ready.isEmpty then { st with results := results1 }
          else waveLoop reg cfg f
            (runGroups reg (group_parallel_steps ready cfg.parallel_groups)
              { st with results := results1 }) := by
        simp only [waveLoop, hscan]
      by_cases hrdy : ready.isEmpty
      · rw [hloop, if_pos hrdy]
        exact hres1
      · rw [hloop, if_neg hrdy]
        exact ih _ id (runGroups_isSome hres1)

/-- Initialising PENDING results covers every step id. -/
theorem init_results_isSome (steps : List StepConfig) :
    ∀ (acc : Results) (id : String),
      (lookupA id acc).isSome ∨ id ∈ steps.map (fun s => s.id) →
      (lookupA id (steps.foldl
        (fun acc s => insertA s.id ⟨s.id, StepStatus.pending, none, none, 0, none⟩ acc)
        acc)).isSome := by
  induction steps with
  | nil =>
      intro acc id h
      rcases h with h | h
      · exact h
      · simp at h
  | cons s rest ih =>
      intro acc id h
      show (lookupA id (rest.foldl _
        (insertA s.id ⟨s.id, StepStatus.pending, none, none, 0, none⟩ acc))).isSome
      apply ih
      rcases h with h | h
      · exact Or.inl (isSome_lookupA_insertA _ _ h)
      · simp only [List.map_cons, List.mem_cons] at h
        rcases h with rfl | h
        · exact Or.inl (by simp [lookupA_insertA_self])
        · exact Or.inr h

/-! ## Condition-evaluation lemmas -/

theorem depsCompleted_iff (res : Results) (step : StepConfig) :
    depsCompleted res step = true ↔
      ∀ d ∈ step.dependencies, ∃ rd, lookupA d res = some rd ∧
        rd.status = StepStatus.completed := by
  unfold depsCompleted
  rw [List.all_eq_true]
  constructor
  · intro h d hd
    have := h d hd
    cases hl : lookupA d res with
    | none => rw [hl] at this; cases this
    | some rd =>
        rw [hl] at this
        exact ⟨rd, rfl, by simpa [beq_iff_eq] using this⟩
  · intro h d hd
    obtain ⟨rd, hl, hc⟩ := h d hd
    rw [hl]
    simpa [beq_iff_eq] using hc

theorem check_condition_false_iff (step : StepConfig) (res : Results) :
    check_condition step res = false ↔
      ∃ c, step.condition = some c ∧ "dep_".data.isPrefixOf c.data = true ∧
        ∀ r, lookupA (String.mk (c.data.drop 4)) res = some r → r.status ≠ StepStatus.completed := by
  unfold check_condition
  cases hcond : step.condition with
  | none => simp
  | some c =>
      dsimp only
      by_cases hce : c = ""
      · subst hce
        rw [if_pos rfl]
        simp only [Bool.true_eq_false, false_iff]
        rintro ⟨c', hc', hsw, -⟩
        cases hc'
        exact absurd hsw (by decide)
      · rw [if_neg hce]
        by_cases hsw : "dep_".data.isPrefixOf c.data
        · rw [if_pos hsw]
          cases hl : lookupA (String.mk (c.data.drop 4)) res with
          | none =>
              dsimp only
              constructor
              · intro _
                exact ⟨c, rfl, hsw, fun r hr => by rw [hl] at hr; cases hr⟩
              · intro _
                rfl
          | some r =>
              dsimp only
              constructor
              · intro h
                refine ⟨c, rfl, hsw, fun r' hr' => ?_⟩
                rw [hl] at hr'
                cases hr'
                intro hcpl
                rw [hcpl] at h
                simp at h
              · rintro ⟨c', hc', -, hall⟩
                cases hc'
                have hne := hall r hl
                simpa using hne
        · rw [if_neg hsw]
          simp only [Bool.true_eq_false, false_iff]
          rintro ⟨c', hc', hsw', -⟩
          cases hc'
          exact absurd hsw' hsw

/-- A ready step whose condition is false is marked SKIPPED by the scan,
with every other StepResult field preserved. -/
theorem scanReady_skips {steps : List StepConfig}
    (hn : (steps.map (fun s => s.id)).Nodup) {s : StepConfig} (hs : s ∈ steps)
    {res : Results} {r : StepResult} (hr : lookupA s.id res = some r)
    (hp : r.status = StepStatus.pending) (hd : depsCompleted res s = true)
    (hc : check_condition s res = false) :
    lookupA s.id (scanReady steps res).2 = some { r with status := StepStatus.skipped } := by
  induction steps generalizing res with
  | nil => cases hs
  | cons t rest ih =>
      have hn' : (rest.map (fun st => st.id)).Nodup := (List.nodup_cons.mp hn).2
      have hnotin : t.id ∉ rest.map (fun st => st.id) := (List.nodup_cons.mp hn).1
      rw [List.mem_cons] at hs
      rcases hs with rfl | hs
      · -- s is the head step: the scan skips it here
        have hpend : isPending res s.id = true := (isPending_iff res s.id).mpr ⟨r, hr, hp⟩
        have hscan : (scanReady (s :: rest) res).2 =
            (scanReady rest (setStatus res s.id StepStatus.skipped)).2 := by
          simp only [scanReady, hpend, hd, hc, if_true, if_false, Bool.false_eq_true]
        rw [hscan]
        exact scanReady_preserves_not_pending (lookupA_setStatus_self hr) (by simp)
      · -- s occurs in the tail; the head step may itself be skipped first
        have hne : t.id ≠ s.id := by
          intro hh
          exact hnotin (hh ▸ List.mem_map.mpr ⟨s, hs, rfl⟩)
        by_cases hpt : isPending res t.id
        · by_cases hdt : depsCompleted res t
          · by_cases hct : check_condition t res
            · have hscan : (scanReady (t :: rest) res).2 = (scanReady rest res).2 := by
                simp only [scanReady, hpt, hdt, hct, if_true]
              rw [hscan]
              exact ih hn' hs hr hd hc
            · -- head step skipped during the scan: transfer the hypotheses
              obtain ⟨rt, hrt, hrtp⟩ := (isPending_iff res t.id).mp hpt
              have hscan : (scanReady (t :: rest) res).2 =
                  (scanReady rest (setStatus res t.id StepStatus.skipped)).2 := by
                simp only [scanReady, hpt, hdt, hct, if_true, if_false, Bool.false_eq_true]
              rw [hscan]
              have hr' : lookupA s.id (setStatus res t.id StepStatus.skipped) = some r := by
                rw [lookupA_setStatus_ne (Ne.symm hne)]
                exact hr
              have hd' : depsCompleted (setStatus res t.id StepStatus.skipped) s = true := by
                rw [depsCompleted_iff]
                intro d hdm
                obtain ⟨rd, hld, hcd⟩ := (depsCompleted_iff res s).mp hd d hdm
                have hdne : d ≠ t.id := by
                  intro hh
                  rw [hh, hrt] at hld
                  cases hld
                  rw [hrtp] at hcd
                  cases hcd
                rw [lookupA_setStatus_ne hdne]
                exact ⟨rd, hld, hcd⟩
              have hc' : check_condition s (setStatus res t.id StepStatus.skipped) = false := by
                rw [check_condition_false_iff]
                obtain ⟨c, hcnd, hsw, hall⟩ := (check_condition_false_iff s res).mp hc
                refine ⟨c, hcnd, hsw, fun r' hr' => ?_⟩
                by_cases hdx : String.mk (c.data.drop 4) = t.id
                · rw [hdx, lookupA_setStatus_self hrt] at hr'
                  cases hr'
                  simp
                · rw [lookupA_setStatus_ne hdx] at hr'
                  exact hall r' hr'
              exact ih hn' hs hr' hd' hc'
          · have hscan : (scanReady (t :: rest) res).2 = (scanReady rest res).2 := by
              simp only [scanReady, hpt, hdt, if_true, if_false, Bool.false_eq_true]
            rw [hscan]
            exact ih hn' hs hr hd hc
        · have hscan : (scanReady (t :: rest) res).2 = (scanReady rest res).2 := by
            simp only [scanReady, hpt, if_false, Bool.false_eq_true]
          rw [hscan]
          exact ih hn' hs hr hd hc

/-! ## Claim C7 -/

theorem successFlag_iff (a : StepStatus) :
    (if a == StepStatus.skipped then true else a == StepStatus.completed) = true ↔
      (a = StepStatus.completed ∨ a = StepStatus.skipped) := by
  cases a <;> simp

/-- C7: for a flow that passes the scheduler's validation, the returned
`success` flag is true iff every recorded step result has final status
COMPLETED or SKIPPED (equivalently, it is false whenever any step ended
PENDING or FAILED); moreover `step_results` records an entry for every
step of the flow. -/
theorem C7_success_iff_completed_or_skipped (reg : Registry) (cm : ContextManager)
    (cfg : TaskFlowConfig) (hv : scheduler_validate cfg = []) :
    ((execute_task reg cm cfg).success = true ↔
      ∀ p ∈ (execute_task reg cm cfg).step_results,
        p.2.status = StepStatus.completed ∨ p.2.status = StepStatus.skipped) ∧
    (∀ s ∈ cfg.steps, ∃ r, lookupA s.id (execute_task reg cm cfg).step_results = some r) := by
  have hrun : execute_task reg cm cfg =
      ⟨cfg.name,
        (executeSteps reg cfg
          ⟨cfg.steps.foldl
            (fun acc s => insertA s.id ⟨s.id, StepStatus.pending, none, none, 0, none⟩ acc)
            [], cm, [], [], []⟩).results.all (fun p =>
          if p.2.status == StepStatus.skipped then true
          else p.2.status == StepStatus.completed),
        (executeSteps reg cfg
          ⟨cfg.steps.foldl
            (fun acc s => insertA s.id ⟨s.id, StepStatus.pending, none, none, 0, none⟩ acc)
            [], cm, [], [], []⟩).results, []⟩ := by
    unfold execute_task
    rw [if_pos hv]
  rw [hrun]
  constructor
  · simp only [List.all_eq_true]
    constructor
    · intro hall p hp
      exact (successFlag_iff p.2.status).mp (hall p hp)
    · intro hall p hp
      exact (successFlag_iff p.2.status).mpr (hall p hp)
  · intro s hs
    have hinit := init_results_isSome cfg.steps [] s.id
      (Or.inr (List.mem_map.mpr ⟨s, hs, rfl⟩))
    have hfin := @waveLoop_isSome reg cfg (cfg.steps.length + 1)
      ⟨cfg.steps.foldl
        (fun acc s => insertA s.id ⟨s.id, StepStatus.pending, none, none, 0, none⟩ acc)
        [], cm, [], [], []⟩ s.id hinit
    exact Option.isSome_iff_exists.mp hfin

/-! ## Claim C8 -/

/-- C8: (i) a ready step's condition evaluates to true exactly when it
is absent, empty, a non-empty string not starting with `"dep_"`, or a
`"dep_"`-prefixed string whose remainder names a step whose status is
COMPLETED; (ii) a ready step (PENDING, dependencies COMPLETED) whose
condition evaluates to false is transitioned by the scan directly from
PENDING to SKIPPED with its output and error fields untouched, is not
part of the ready set, and for the remainder of the run keeps exactly
that SKIPPED result and is never executed. -/
theorem C8_condition_eval_and_skip :
    (∀ (step : StepConfig) (res : Results),
      check_condition step res = true ↔
        (step.condition = none ∨ step.condition = some "" ∨
          (∃ c, step.condition = some c ∧ c ≠ "" ∧ "dep_".data.isPrefixOf c.data = false) ∨
          (∃ c, step.condition = some c ∧ "dep_".data.isPrefixOf c.data = true ∧
            ∃ r, lookupA (String.mk (c.data.drop 4)) res = some r ∧ r.status = StepStatus.completed))) ∧
    (∀ (reg : Registry) (cfg : TaskFlowConfig),
      (cfg.steps.map (fun s => s.id)).Nodup →
      ∀ s ∈ cfg.steps, ∀ (res : Results) (r : StepResult),
        lookupA s.id res = some r → r.status = StepStatus.pending →
        depsCompleted res s = true → check_condition s res = false →
        lookupA s.id (scanReady cfg.steps res).2 =
          some { r with status := StepStatus.skipped } ∧
        (∀ s' ∈ (scanReady cfg.steps res).1, s'.id ≠ s.id) ∧
        (∀ (fuel : Nat) (st : SchedState), st.results = res → s.id ∉ st.log →
          lookupA s.id (waveLoop reg cfg (fuel + 1) st).results =
            some { r with status := StepStatus.skipped } ∧
          s.id ∉ (waveLoop reg cfg (fuel + 1) st).log)) := by
  constructor
  · intro step res
    unfold check_condition
    cases hcond : step.condition with
    | none => simp
    | some c =>
        dsimp only
        by_cases hce : c = ""
        · subst hce
          rw [if_pos rfl]
          simp
        · rw [if_neg hce]
          by_cases hsw : "dep_".data.isPrefixOf c.data
          · rw [if_pos hsw]
            cases hl : lookupA (String.mk (c.data.drop 4)) res with
            | none =>
                dsimp only
                simp only [Bool.false_eq_true, false_iff]
                rintro (hx | hx | ⟨c', hc', -, hsw'⟩ | ⟨c', hc', -, r, hr, -⟩)
                · cases hx
                · cases hx; exact hce rfl
                · cases hc'; rw [hsw] at hsw'; cases hsw'
                · cases hc'; rw [hl] at hr; cases hr
            | some r =>
                dsimp only
                constructor
                · intro h
                  exact Or.inr (Or.inr (Or.inr ⟨c, rfl, hsw, r, hl,
                    by simpa [beq_iff_eq] using h⟩))
                · rintro (hx | hx | ⟨c', hc', -, hsw'⟩ | ⟨c', hc', -, r', hr', hst⟩)
                  · cases hx
                  · cases hx; exact absurd rfl hce
                  · cases hc'; rw [hsw] at hsw'; cases hsw'
                  · cases hc'
                    rw [hl] at hr'
                    cases hr'
                    simp [beq_iff_eq, hst]
          · rw [if_neg hsw]
            simp only [true_iff]
            refine Or.inr (Or.inr (Or.inl ⟨c, rfl, hce, ?_⟩))
            exact Bool.eq_false_iff.mpr hsw
  · intro reg cfg hn s hs res r hr hp hd hc
    have h1 : lookupA s.id (scanReady cfg.steps res).2 =
        some { r with status := StepStatus.skipped } :=
      scanReady_skips hn hs hr hp hd hc
    have h2 : ∀ s' ∈ (scanReady cfg.steps res).1, s'.id ≠ s.id := by
      intro s' hs' heq
      obtain ⟨r', hr', hr'p⟩ := scanReady_ready_pending hn s' hs'
      rw [heq, h1] at hr'
      cases hr'
      cases hr'p
    refine ⟨h1, h2, ?_⟩
    intro fuel st hst hstlog
    rcases hscan : scanReady cfg.steps st.results with ⟨ready, results1⟩
    have hscan' : scanReady cfg.steps res = (ready, results1) := by
      rw [← hst]
      exact hscan
    have hres1 : lookupA s.id results1 = some { r with status := StepStatus.skipped } := by
      rw [← h1, hscan']
    have hloop : waveLoop reg cfg (fuel + 1) st =
        if ready.isEmpty then { st with results := results1 }
        else waveLoop reg cfg fuel
          (runGroups reg (group_parallel_steps ready cfg.parallel_groups)
            { st with results := results1 }) := by
      simp only [waveLoop, hscan]
    by_cases hrdy : ready.isEmpty
    · rw [hloop, if_pos hrdy]
      exact ⟨hres1, hstlog⟩
    · rw [hloop, if_neg hrdy]
      have hid_not : ∀ g ∈ group_parallel_steps ready cfg.parallel_groups,
          ∀ t ∈ g, t.id ≠ s.id := by
        intro g hg t ht
        have hmem : t ∈ ready := group_parallel_steps_mem g hg t ht
        have : t ∈ (scanReady cfg.steps res).1 := by rw [hscan']; exact hmem
        exact h2 t this
      have hrun : lookupA s.id (runGroups reg
          (group_parallel_steps ready cfg.parallel_groups)
          { st with results := results1 }).results =
            some { r with status := StepStatus.skipped } := by
        rw [runGroups_other hid_not]
        exact hres1
      have hlog : s.id ∉ (runGroups reg (group_parallel_steps ready cfg.parallel_groups)
          { st with results := results1 }).log := by
        rw [runGroups_log]
        simp only [List.mem_append]
        rintro (hcase | hcase)
        · exact hstlog hcase
        · simp only [List.mem_flatten, List.mem_map] at hcase
          obtain ⟨l, ⟨g, hg, rfl⟩, hil⟩ := hcase
          simp only [List.mem_map] at hil
          obtain ⟨t, ht, hteq⟩ := hil
          exact hid_not g hg t ht hteq
      obtain ⟨hh1, hh2⟩ := waveLoop_preserves hn fuel _ s.id _ hrun (by simp)
      exact ⟨hh1, hh2 hlog⟩

/-- C8 (witness): the theorem applied to the concrete flow `cfgSkip`
(the ready step `c` with false condition `"dep_x"` is skipped and never
executed). -/
theorem C8_witness :
    check_condition ⟨"c", "c", "t", [], [], 0, 0, none, some "dep_x"⟩ resSkip = false ∧
    lookupA "c" (scanReady cfgSkip.steps resSkip).2 =
      some ⟨"c", StepStatus.skipped, none, none, 0, none⟩ ∧
    lookupA "c" (waveLoop regSkip cfgSkip 2 stSkip).results =
      some ⟨"c", StepStatus.skipped, none, none, 0, none⟩ ∧
    "c" ∉ (waveLoop regSkip cfgSkip 2 stSkip).log := by
  have h := (C8_condition_eval_and_skip.2 regSkip cfgSkip (by decide)
    ⟨"c", "c", "t", [], [], 0, 0, none, some "dep_x"⟩ (by decide) resSkip
    ⟨"c", StepStatus.pending, none, none, 0, none⟩ (by decide) rfl (by decide) (by decide))
  obtain ⟨hh1, -, hh3⟩ := h
  obtain ⟨hh4, hh5⟩ := hh3 1 stSkip rfl (by decide)
  exact ⟨by decide, hh1, hh4, hh5⟩

/-- C7 (witness): the theorem applied to a concrete single-step flow
that passes validation. -/
theorem C7_witness :
    scheduler_validate cfgOk = [] ∧
    (((execute_task regOk emptyCtx cfgOk).success = true ↔
      ∀ p ∈ (execute_task regOk emptyCtx cfgOk).step_results,
        p.2.status = StepStatus.completed ∨ p.2.status = StepStatus.skipped) ∧
    (∀ s ∈ cfgOk.steps, ∃ r,
      lookupA s.id (execute_task regOk emptyCtx cfgOk).step_results = some r)) :=
  ⟨rfl, C7_success_iff_completed_or_skipped regOk emptyCtx cfgOk rfl⟩

/-! ## Lemmas about the environment-variable substitution -/

theorem str_ext {a b : String} (h : a.data = b.data) : a = b := by
  cases a
  cases b
  cases h
  rfl

theorem str_data_append (a b : String) : (a ++ b).data = a.data ++ b.data := by
  cases a
  cases b
  rfl

theorem takeWhile_app {p : Char → Bool} {l : List Char} (l' : List Char)
    (h : ∀ c ∈ l, p c = true) : (l ++ l').takeWhile p = l ++ l'.takeWhile p := by
  induction l with
  | nil => rfl
  | cons c rest ih =>
      have hc : p c = true := h c (List.mem_cons_self c rest)
      simp only [List.cons_append, List.takeWhile_cons, hc, if_true]
      rw [ih (fun c' hc' => h c' (List.mem_cons_of_mem _ hc'))]

theorem dropWhile_app {p : Char → Bool} {l : List Char} (l' : List Char)
    (h : ∀ c ∈ l, p c = true) : (l ++ l').dropWhile p = l'.dropWhile p := by
  induction l with
  | nil => rfl
  | cons c rest ih =>
      have hc : p c = true := h c (List.mem_cons_self c rest)
      simp only [List.cons_append, List.dropWhile_cons, hc, if_true]
      exact ih (fun c' hc' => h c' (List.mem_cons_of_mem _ hc'))

/-- The pattern matches the reconstructed occurrence text at the head of
any input, consuming exactly it. -/
theorem matchEnvRef_wholeMatch (nm : String) (dflt : Option String) (s : List Char)
    (hn : goodName nm) (hd : goodDflt dflt) :
    matchEnvRef (wholeMatch nm dflt ++ s) = some (nm, dflt, s) := by
  obtain ⟨hne, hchars⟩ := hn
  obtain ⟨l⟩ := nm
  have hchars' : ∀ c ∈ l, nameChar c = true := hchars
  have hne' : ¬l.isEmpty = true := by simpa [List.isEmpty_iff] using hne
  cases dflt with
  | none =>
      have hshape : wholeMatch ⟨l⟩ none ++ s = '$' :: '{' :: (l ++ '}' :: s) := by
        unfold wholeMatch
        simp
      rw [hshape]
      unfold matchEnvRef
      dsimp only
      rw [if_pos ⟨rfl, rfl⟩]
      rw [takeWhile_app _ hchars', dropWhile_app _ hchars']
      have h1 : List.takeWhile nameChar ('}' :: s) = [] := by
        simp [List.takeWhile_cons, nameChar]
      have h2 : List.dropWhile nameChar ('}' :: s) = '}' :: s := by
        simp [List.dropWhile_cons, nameChar]
      rw [h1, h2, List.append_nil, if_neg hne']
      simp
  | some d =>
      obtain ⟨ld⟩ := d
      have hdchars : ∀ c ∈ ld, (c != '}') = true := hd
      have hshape : wholeMatch ⟨l⟩ (some ⟨ld⟩) ++ s =
          '$' :: '{' :: (l ++ ':' :: (ld ++ '}' :: s)) := by
        unfold wholeMatch
        simp
      rw [hshape]
      unfold matchEnvRef
      dsimp only
      rw [if_pos ⟨rfl, rfl⟩]
      rw [takeWhile_app _ hchars', dropWhile_app _ hchars']
      have h1 : List.takeWhile nameChar (':' :: (ld ++ '}' :: s)) = [] := by
        simp [List.takeWhile_cons, nameChar]
      have h2 : List.dropWhile nameChar (':' :: (ld ++ '}' :: s)) =
          ':' :: (ld ++ '}' :: s) := by
        simp [List.dropWhile_cons, nameChar]
      rw [h1, h2, List.append_nil, if_neg hne']
      have h5 : List.takeWhile (fun c => c != '}') (ld ++ '}' :: s) = ld := by
        rw [takeWhile_app _ hdchars]
        simp [List.takeWhile_cons]
      have h6 : List.dropWhile (fun c => c != '}') (ld ++ '}' :: s) = '}' :: s := by
        rw [dropWhile_app _ hdchars]
        simp [List.dropWhile_cons]
      simp [h5, h6]

/-- A successful pattern match consumes at least four characters. -/
theorem matchEnvRef_length {cs : List Char} {nm : String} {dflt : Option String}
    {tail : List Char} (h : matchEnvRef cs = some (nm, dflt, tail)) :
    tail.length + 4 ≤ cs.length := by
  cases cs with
  | nil => cases h
  | cons c1 cs1 =>
      cases cs1 with
      | nil => cases h
      | cons c2 rest =>
          unfold matchEnvRef at h
          dsimp only at h
          by_cases hb : c1 = '$' ∧ c2 = '{'
          · rw [if_pos hb] at h
            by_cases hemp : (rest.takeWhile nameChar).isEmpty
            · rw [if_pos hemp] at h
              cases h
            · rw [if_neg hemp] at h
              have hlen : 1 ≤ (rest.takeWhile nameChar).length := by
                cases hw : rest.takeWhile nameChar with
                | nil => rw [hw, List.isEmpty_nil] at hemp; exact absurd rfl hemp
                | cons x xs => simp
              have hsplit := congrArg List.length
                (List.takeWhile_append_dropWhile nameChar rest)
              cases hdw : rest.dropWhile nameChar with
              | nil =>
                  rw [hdw] at h
                  cases h
              | cons c3 rest2 =>
                  rw [hdw] at h
                  dsimp only at h
                  rw [hdw] at hsplit
                  simp only [List.length_append, List.length_cons] at hsplit
                  by_cases h3 : c3 = '}'
                  · rw [if_pos h3] at h
                    cases h
                    simp only [List.length_cons]
                    omega
                  · rw [if_neg h3] at h
                    by_cases h4 : c3 = ':'
                    · rw [if_pos h4] at h
                      have hsplit2 := congrArg List.length
                        (List.takeWhile_append_dropWhile (fun c => c != '}') rest2)
                      cases hdw2 : rest2.dropWhile (fun c => c != '}') with
                      | nil =>
                          rw [hdw2] at h
                          cases h
                      | cons c4 rest3 =>
                          rw [hdw2] at h
                          dsimp only at h
                          rw [hdw2] at hsplit2
                          simp only [List.length_append, List.length_cons] at hsplit2
                          by_cases h5 : c4 = '}'
                          · rw [if_pos h5] at h
                            cases h
                            simp only [List.length_cons]
                            omega
                          · rw [if_neg h5] at h
                            cases h
                    · rw [if_neg h4] at h
                      cases h
          · rw [if_neg hb] at h
            cases h

theorem substGo_nil (env : String → Option String) (f : Nat) : substGo env f [] = [] := by
  cases f <;> rfl

theorem substGo_cons_eq (env : String → Option String) (g : Nat) (c : Char)
    (rest : List Char) :
    substGo env (g + 1) (c :: rest) =
      match matchEnvRef (c :: rest) with
      | some (nm, dflt, tail) => replaceVar env nm dflt ++ substGo env g tail
      | none => c :: substGo env g rest := rfl

/-- The scan is insensitive to the exact fuel, provided it covers the
input length. -/
theorem substGo_fuel (env : String → Option String) :
    ∀ (k : Nat) (cs : List Char) (f₁ f₂ : Nat), cs.length ≤ k →
      cs.length ≤ f₁ → cs.length ≤ f₂ → substGo env f₁ cs = substGo env f₂ cs := by
  intro k
  induction k with
  | zero =>
      intro cs f₁ f₂ hk _ _
      have : cs = [] := List.length_eq_zero.mp (Nat.le_zero.mp hk)
      subst this
      rw [substGo_nil, substGo_nil]
  | succ m ih =>
      intro cs f₁ f₂ hk h1 h2
      cases cs with
      | nil => rw [substGo_nil, substGo_nil]
      | cons c rest =>
          cases f₁ with
          | zero => simp at h1
          | succ g₁ =>
              cases f₂ with
              | zero => simp at h2
              | succ g₂ =>
                  rw [substGo_cons_eq, substGo_cons_eq]
                  simp only [List.length_cons] at hk h1 h2
                  cases hm : matchEnvRef (c :: rest) with
                  | none =>
                      dsimp only
                      rw [ih rest g₁ g₂ (by omega) (by omega) (by omega)]
                  | some x =>
                      rcases x with ⟨nm, dflt, tail⟩
                      have hlen := matchEnvRef_length hm
                      simp only [List.length_cons] at hlen
                      dsimp only
                      rw [ih tail g₁ g₂ (by omega) (by omega) (by omega)]

/-- Substituting a string that begins with a pattern occurrence: the
occurrence is replaced (per `replaceVar`) and the scan continues after
it, never re-scanning the replacement. -/
theorem subst_head (env : String → Option String) (nm : String) (dflt : Option String)
    (hn : goodName nm) (hd : goodDflt dflt) (s : String) :
    substitute_env_var_in_string env (String.mk (wholeMatch nm dflt) ++ s) =
      String.mk (replaceVar env nm dflt) ++ substitute_env_var_in_string env s := by
  have hm := matchEnvRef_wholeMatch nm dflt s.data hn hd
  have hml := matchEnvRef_length hm
  have happ : String.mk (replaceVar env nm dflt) ++ substitute_env_var_in_string env s =
      String.mk (replaceVar env nm dflt ++ substGo env s.data.length s.data) := by
    unfold substitute_env_var_in_string
    rfl
  rw [happ]
  unfold substitute_env_var_in_string
  rw [str_data_append]
  cases hw : wholeMatch nm dflt with
  | nil =>
      exfalso
      have hwne : wholeMatch nm dflt ≠ [] := by cases dflt <;> simp [wholeMatch]
      exact hwne hw
  | cons wc wrest =>
      rw [hw] at hm hml
      rw [List.cons_append] at hm hml ⊢
      simp only [List.length_cons] at hml
      rw [List.length_cons, substGo_cons_eq, hm]
      dsimp only
      apply congrArg String.mk
      apply congrArg (replaceVar env nm dflt ++ ·)
      exact substGo_fuel env ((wrest ++ s.data).length) s.data _ _ (by omega) (by omega)
        (Nat.le_refl _)

theorem matchEnvRef_no_dollar {c : Char} {rest : List Char} (h : c ≠ '$') :
    matchEnvRef (c :: rest) = none := by
  cases rest with
  | nil => rfl
  | cons c2 r => exact if_neg (fun hb => h hb.1)

/-- Substitution passes text without `$` through verbatim and continues
on the remainder. -/
theorem subst_no_dollar_head (env : String → Option String) :
    ∀ (l : List Char) (s : String) (f : Nat), (∀ c ∈ l, c ≠ '$') →
      (l ++ s.data).length ≤ f →
      substGo env f (l ++ s.data) = l ++ substGo env s.data.length s.data := by
  intro l
  induction l with
  | nil =>
      intro s f _ hf
      exact substGo_fuel env f s.data f s.data.length (by simpa using hf)
        (by simpa using hf) (Nat.le_refl _)
  | cons c rest ih =>
      intro s f hl hf
      cases f with
      | zero =>
          exfalso
          rw [List.cons_append] at hf
          simp only [List.length_cons] at hf
          omega
      | succ g =>
          rw [List.cons_append, substGo_cons_eq,
            matchEnvRef_no_dollar (hl c (List.mem_cons_self c rest))]
          rw [List.cons_append] at hf
          simp only [List.length_cons] at hf
          rw [ih s g (fun c' hc' => hl c' (List.mem_cons_of_mem _ hc')) (by omega)]
          rw [List.cons_append]

theorem refNone_eq (nm : String) :
    "$\x7b" ++ nm ++ "\x7d" = String.mk (wholeMatch nm none) := by
  apply str_ext
  rw [str_data_append, str_data_append]
  show (['$', '{'] ++ nm.data) ++ ['}'] = wholeMatch nm none
  unfold wholeMatch
  simp

theorem refSome_eq (nm d : String) :
    "$\x7b" ++ nm ++ ":" ++ d ++ "\x7d" = String.mk (wholeMatch nm (some d)) := by
  apply str_ext
  rw [str_data_append, str_data_append, str_data_append, str_data_append]
  show (((['$', '{'] ++ nm.data) ++ [':']) ++ d.data) ++ ['}'] = wholeMatch nm (some d)
  unfold wholeMatch
  simp

theorem replaceVar_env_set {env : String → Option String} {nm v : String}
    (dflt : Option String) (h : env nm = some v) :
    String.mk (replaceVar env nm dflt) = v := by
  unfold replaceVar
  rw [h]

theorem replaceVar_env_unset_dflt {env : String → Option String} {nm d : String}
    (h : env nm = none) (hd : d ≠ "") :
    String.mk (replaceVar env nm (some d)) = d := by
  unfold replaceVar
  rw [h]
  dsimp only
  rw [if_neg hd]

theorem replaceVar_env_unset_none {env : String → Option String} {nm : String}
    (h : env nm = none) :
    String.mk (replaceVar env nm none) = String.mk (wholeMatch nm none) := by
  unfold replaceVar
  rw [h]

/-! ## Claim C9 -/

/-- C9 (counterexample): with `X` unset in the environment, the
occurrence `${X:}` carrying an explicitly given *empty* default is left
verbatim rather than replaced by the empty default (the callback's
`elif default_value:` treats the empty string as "no default"), while a
non-empty default `${X:d}` is substituted — refuting the claim's
"including the empty default" case. -/
theorem C9_counterexample :
    substitute_env_var_in_string (fun _ => none) "$\x7bX:\x7d" = "$\x7bX:\x7d" ∧
    "$\x7bX:\x7d" ≠ "" ∧
    substitute_env_var_in_string (fun _ => none) "$\x7bX:d\x7d" = "d" := by
  refine ⟨by decide, by decide, by decide⟩

/-- C9 (amended): for every wellformed occurrence `${NAME}` or
`${NAME:default}` at any position of a string scalar, the occurrence is
replaced by the environment value of `NAME` when set; otherwise by the
default when one is given *and non-empty*; otherwise (unset with no
default, or unset with the empty default `${NAME:}`) the occurrence is
left verbatim; text without `$` is passed through unchanged and the
scan continues after each occurrence. -/
theorem C9_env_substitution :
    (∀ (env : String → Option String) (nm v : String), goodName nm → env nm = some v →
      (∀ s : String,
        substitute_env_var_in_string env (("$\x7b" ++ nm ++ "\x7d") ++ s) =
          v ++ substitute_env_var_in_string env s) ∧
      (∀ d s : String, goodDflt (some d) →
        substitute_env_var_in_string env (("$\x7b" ++ nm ++ ":" ++ d ++ "\x7d") ++ s) =
          v ++ substitute_env_var_in_string env s)) ∧
    (∀ (env : String → Option String) (nm : String), goodName nm → env nm = none →
      (∀ s : String,
        substitute_env_var_in_string env (("$\x7b" ++ nm ++ "\x7d") ++ s) =
          ("$\x7b" ++ nm ++ "\x7d") ++ substitute_env_var_in_string env s) ∧
      (∀ d s : String, goodDflt (some d) → d ≠ "" →
        substitute_env_var_in_string env (("$\x7b" ++ nm ++ ":" ++ d ++ "\x7d") ++ s) =
          d ++ substitute_env_var_in_string env s) ∧
      (∀ s : String,
        substitute_env_var_in_string env (("$\x7b" ++ nm ++ ":" ++ "" ++ "\x7d") ++ s) =
          ("$\x7b" ++ nm ++ ":" ++ "" ++ "\x7d") ++ substitute_env_var_in_string env s)) ∧
    (∀ (env : String → Option String) (p s : String), (∀ c ∈ p.data, c ≠ '$') →
      substitute_env_var_in_string env (p ++ s) = p ++ substitute_env_var_in_string env s) := by
  refine ⟨?_, ?_, ?_⟩
  · intro env nm v hn hv
    constructor
    · intro s
      rw [refNone_eq nm, subst_head env nm none hn trivial s, replaceVar_env_set none hv]
    · intro d s hd
      rw [refSome_eq nm d, subst_head env nm (some d) hn hd s,
        replaceVar_env_set (some d) hv]
  · intro env nm hn hv
    refine ⟨?_, ?_, ?_⟩
    · intro s
      rw [refNone_eq nm, subst_head env nm none hn trivial s, replaceVar_env_unset_none hv]
    · intro d s hd hdne
      rw [refSome_eq nm d, subst_head env nm (some d) hn hd s,
        replaceVar_env_unset_dflt hv hdne]
    · intro s
      have hd0 : goodDflt (some "") := by
        intro c hc
        simp at hc
      rw [refSome_eq nm "", subst_head env nm (some "") hn hd0 s]
      have : String.mk (replaceVar env nm (some "")) = String.mk (wholeMatch nm (some "")) := by
        unfold replaceVar
        rw [hv]
        rfl
      rw [this, ← refSome_eq nm ""]
  · intro env p s hp
    unfold substitute_env_var_in_string
    rw [str_data_append]
    rw [subst_no_dollar_head env p.data s ((p.data ++ s.data).length) hp (Nat.le_refl _)]
    obtain ⟨lp⟩ := p
    rfl

/-- C9 (witness): the amended theorem applied to concrete occurrences:
a set variable is substituted, and an unset variable with the non-empty
default `d` falls back to `d`. -/
theorem C9_witness :
    goodName "X" ∧ envX "X" = some "val" ∧
    substitute_env_var_in_string envX (("$\x7b" ++ "X" ++ "\x7d") ++ "-t") =
      "val" ++ substitute_env_var_in_string envX "-t" ∧
    substitute_env_var_in_string (fun _ => none)
        (("$\x7b" ++ "X" ++ ":" ++ "d" ++ "\x7d") ++ "") =
      "d" ++ substitute_env_var_in_string (fun _ => none) "" :=
  ⟨by decide, rfl,
    (C9_env_substitution.1 envX "X" "val" (by decide) rfl).1 "-t",
    ((C9_env_substitution.2.1 (fun _ => none) "X" (by decide) rfl).2.1 "d" ""
      (by decide) (by decide))⟩

end MAST
